import Mathlib

/-!
Verification of the lazy k-way sorted-union merge implemented in
src/merge.rs of the iter-sets-ops crate.

The embedding models:
* the caller-supplied comparator as a function `T → T → Ordering`;
* each source iterator as the list of its not-yet-pulled elements;
* the binary_heap_plus max-heap (built over the flipped comparator, hence
  a min-heap on values) as a list in breadth-first array layout, together
  with faithful translations of sift_down, sift_down_to_bottom, sift_up,
  the rebuild loop of from_vec_cmp, and pop;
* MergeIterator::next and DetailedMergeIterator::next as state-passing
  functions on (sources, heap) states.

All recursion is fuel-based so that every definition evaluates by kernel
reduction; wrappers supply fuel that is provably sufficient.
-/

namespace IterSetsOps

/-- Comparator abstraction: the Rust side passes cmp : Fn(&T, &T) -> Ordering. -/
abbrev Cmp (T : Type) := T → T → Ordering

/-- Laws of a total order comparator, the documented precondition on cmp:
antisymmetric (distinct values never compare Equal), swap-symmetric, and
transitive on the non-Greater relation. -/
structure LawfulCmp {T : Type} (cmp : Cmp T) : Prop where
  swap_eq : ∀ a b, (cmp a b).swap = cmp b a
  le_trans : ∀ a b c, cmp a b ≠ Ordering.gt → cmp b c ≠ Ordering.gt → cmp a c ≠ Ordering.gt
  eq_iff : ∀ a b, cmp a b = Ordering.eq → a = b

namespace LawfulCmp

variable {T : Type} {cmp : Cmp T}

theorem refl (h : LawfulCmp cmp) (a : T) : cmp a a = Ordering.eq := by
  have hs := h.swap_eq a a
  cases hc : cmp a a <;> rw [hc] at hs
  all_goals first
  | exact absurd hs (by decide)
  | rfl

theorem gt_iff (h : LawfulCmp cmp) (a b : T) : cmp a b = Ordering.gt ↔ cmp b a = Ordering.lt := by
  have hs := h.swap_eq a b
  constructor
  · intro hgt; rw [hgt] at hs; exact hs.symm
  · intro hlt
    rw [← hs] at hlt
    cases hab : cmp a b <;> rw [hab] at hlt
    all_goals first
    | exact absurd hlt (by decide)
    | rfl

theorem lt_iff (h : LawfulCmp cmp) (a b : T) : cmp a b = Ordering.lt ↔ cmp b a = Ordering.gt := by
  rw [h.gt_iff b a]

theorem eq_comm (h : LawfulCmp cmp) (a b : T) : cmp a b = Ordering.eq ↔ cmp b a = Ordering.eq := by
  constructor <;> intro he
  · rw [h.eq_iff a b he, h.refl]
  · rw [h.eq_iff b a he, h.refl]

theorem le_total (h : LawfulCmp cmp) (a b : T) :
    cmp a b ≠ Ordering.gt ∨ cmp b a ≠ Ordering.gt := by
  cases hab : cmp a b
  · exact Or.inl (by simp)
  · exact Or.inl (by simp)
  · right
    intro hba
    rw [h.gt_iff] at hab
    rw [hab] at hba
    exact Ordering.noConfusion hba

theorem le_of_gt (h : LawfulCmp cmp) {a b : T} (hab : cmp a b = Ordering.gt) :
    cmp b a ≠ Ordering.gt := by
  rw [h.gt_iff] at hab
  rw [hab]
  simp

theorem lt_trans (h : LawfulCmp cmp) {a b c : T}
    (hab : cmp a b = Ordering.lt) (hbc : cmp b c = Ordering.lt) :
    cmp a c = Ordering.lt := by
  have hle : cmp a c ≠ Ordering.gt :=
    h.le_trans a b c (by rw [hab]; simp) (by rw [hbc]; simp)
  cases hac : cmp a c
  · rfl
  · exfalso
    have hacq : a = c := h.eq_iff a c hac
    subst hacq
    rw [(h.lt_iff a b).mp hab] at hbc
    exact Ordering.noConfusion hbc
  · exact absurd hac hle

theorem lt_of_le_of_lt (h : LawfulCmp cmp) {a b c : T}
    (hab : cmp a b ≠ Ordering.gt) (hbc : cmp b c = Ordering.lt) :
    cmp a c = Ordering.lt := by
  cases hab2 : cmp a b
  · exact h.lt_trans hab2 hbc
  · rw [h.eq_iff a b hab2]; exact hbc
  · exact absurd hab2 hab

theorem lt_of_lt_of_le (h : LawfulCmp cmp) {a b c : T}
    (hab : cmp a b = Ordering.lt) (hbc : cmp b c ≠ Ordering.gt) :
    cmp a c = Ordering.lt := by
  cases hbc2 : cmp b c
  · exact h.lt_trans hab hbc2
  · rw [← h.eq_iff b c hbc2]; exact hab
  · exact absurd hbc2 hbc

theorem ne_of_lt (h : LawfulCmp cmp) {a b : T} (hab : cmp a b = Ordering.lt) : a ≠ b := by
  intro he
  subst he
  rw [h.refl] at hab
  exact Ordering.noConfusion hab

end LawfulCmp

/-- Natural ascending order on Nat, the embedding of `T::cmp` for unsigned ints. -/
def natCmp (a b : Nat) : Ordering :=
  if a < b then Ordering.lt else if a = b then Ordering.eq else Ordering.gt

theorem lawful_natCmp : LawfulCmp natCmp := by
  refine ⟨?_, ?_, ?_⟩
  · intro a b
    unfold natCmp
    rcases Nat.lt_trichotomy a b with hlt | heq | hgt
    · rw [if_pos hlt, if_neg (by omega), if_neg (by omega)]; rfl
    · subst heq; rw [if_neg (by omega), if_pos rfl]; rfl
    · rw [if_neg (by omega), if_neg (by omega), if_pos hgt]; rfl
  · intro a b c hab hbc
    unfold natCmp at *
    split at hab <;> split at hbc <;> split <;> try simp_all
    all_goals omega
  · intro a b hab
    unfold natCmp at hab
    split at hab
    · exact Ordering.noConfusion hab
    · split at hab
      · assumption
      · exact Ordering.noConfusion hab

/-- Reversed comparator, the embedding of the closure |x, y| y.cmp(x). -/
def flipCmp {T : Type} (cmp : Cmp T) : Cmp T := fun a b => cmp b a

theorem lawful_flipCmp {T : Type} {cmp : Cmp T} (h : LawfulCmp cmp) :
    LawfulCmp (flipCmp cmp) := by
  refine ⟨?_, ?_, ?_⟩
  · intro a b; exact h.swap_eq b a
  · intro a b c hab hbc
    exact h.le_trans c b a hbc hab
  · intro a b hab
    exact (h.eq_iff b a hab).symm

/-- Strict value order induced by the comparator. -/
def ltc {T : Type} (cmp : Cmp T) (a b : T) : Prop := cmp a b = Ordering.lt

/-- Non-strict value order induced by the comparator. -/
def lec {T : Type} (cmp : Cmp T) (a b : T) : Prop := cmp a b ≠ Ordering.gt

theorem lec_of_ltc {T : Type} {cmp : Cmp T} {a b : T} (h : ltc cmp a b) : lec cmp a b := by
  unfold ltc at h
  unfold lec
  rw [h]
  simp

/-- Order on heap entries: binary_heap_plus receives the closure
|(_, x), (_, y)| cmp(y, x), so the max-heap order on entries is the reversed
value order; compares_le of that closure is this relation. -/
def heapLe {T : Type} (cmp : Cmp T) (a b : Nat × T) : Prop := cmp b.2 a.2 ≠ Ordering.gt

/-- compares_ge of the heap closure. -/
def heapGe {T : Type} (cmp : Cmp T) (a b : Nat × T) : Prop := cmp b.2 a.2 ≠ Ordering.lt

instance {T : Type} (cmp : Cmp T) (a b : Nat × T) : Decidable (heapLe cmp a b) := by
  unfold heapLe; infer_instance

instance {T : Type} (cmp : Cmp T) (a b : Nat × T) : Decidable (heapGe cmp a b) := by
  unfold heapGe; infer_instance

theorem heapLe_iff {T : Type} (cmp : Cmp T) (a b : Nat × T) :
    heapLe cmp a b ↔ lec cmp b.2 a.2 := Iff.rfl

theorem heapLe_refl {T : Type} {cmp : Cmp T} (h : LawfulCmp cmp) (a : Nat × T) :
    heapLe cmp a a := by
  unfold heapLe
  rw [h.refl]
  simp

theorem heapLe_total {T : Type} {cmp : Cmp T} (h : LawfulCmp cmp) (a b : Nat × T)
    (hab : ¬ heapLe cmp a b) : heapLe cmp b a := by
  unfold heapLe at *
  rcases h.le_total a.2 b.2 with hc | hc
  · exact hc
  · exact absurd hc hab

theorem heapLe_trans {T : Type} {cmp : Cmp T} (h : LawfulCmp cmp) {a b c : Nat × T}
    (hab : heapLe cmp a b) (hbc : heapLe cmp b c) : heapLe cmp a c := by
  unfold heapLe at *
  exact h.le_trans c.2 b.2 a.2 hbc hab

theorem not_heapGe {T : Type} {cmp : Cmp T} (h : LawfulCmp cmp) {a b : Nat × T}
    (hab : ¬ heapGe cmp a b) : heapLe cmp a b ∧ ¬ heapLe cmp b a := by
  unfold heapGe at hab
  have hlt : cmp b.2 a.2 = Ordering.lt := by
    by_contra hne
    exact hab hne
  constructor
  · unfold heapLe
    rw [hlt]
    simp
  · unfold heapLe
    rw [(h.lt_iff b.2 a.2).mp hlt]
    simp

theorem heapGe_elim {T : Type} {cmp : Cmp T} (h : LawfulCmp cmp) {a b : Nat × T}
    (hab : heapGe cmp a b) : heapLe cmp b a := by
  unfold heapGe at hab
  unfold heapLe
  intro hgt
  rw [h.gt_iff] at hgt
  exact hab hgt

/-- In-place exchange of two positions of the backing vector, the observable
effect of the Hole moves inside the sift routines. -/
def swapL {α : Type} (l : List α) (i j : Nat) : List α :=
  match l[i]?, l[j]? with
  | some a, some b => (l.set i b).set j a
  | _, _ => l

theorem length_swapL {α : Type} (l : List α) (i j : Nat) :
    (swapL l i j).length = l.length := by
  unfold swapL
  cases l[i]? <;> cases l[j]? <;> simp

theorem cons_set_perm {α : Type} (l : List α) (j : Nat) (a b : α)
    (hj : l[j]? = some b) : (b :: l.set j a).Perm (a :: l) := by
  induction l generalizing j with
  | nil => simp at hj
  | cons x xs ih =>
    cases j with
    | zero =>
      simp only [List.getElem?_cons_zero, Option.some_inj] at hj
      subst hj
      simpa using List.Perm.swap a x xs
    | succ j =>
      simp only [List.getElem?_cons_succ] at hj
      have step1 : (b :: x :: xs.set j a).Perm (x :: b :: xs.set j a) :=
        List.Perm.swap x b _
      have step2 : (x :: b :: xs.set j a).Perm (x :: a :: xs) :=
        List.Perm.cons x (ih j hj)
      have step3 : (x :: a :: xs).Perm (a :: x :: xs) := List.Perm.swap a x xs
      simpa using (step1.trans step2).trans step3

theorem swapL_perm {α : Type} (l : List α) (i j : Nat) : (swapL l i j).Perm l := by
  unfold swapL
  cases hi : l[i]? with
  | none => exact List.Perm.refl l
  | some a =>
    cases hj : l[j]? with
    | none => exact List.Perm.refl l
    | some b =>
      have hjl : j < l.length := (List.getElem?_eq_some.mp hj).1
      have hsb : (l.set i b)[j]? = some b := by
        rw [List.getElem?_set]
        by_cases hij : i = j
        · subst hij
          rw [if_pos rfl, if_pos hjl]
        · rw [if_neg hij]
          exact hj
      have h1 : (b :: (l.set i b).set j a).Perm (a :: l.set i b) :=
        cons_set_perm (l.set i b) j a b hsb
      have h2 : (a :: l.set i b).Perm (b :: l) := cons_set_perm l i b a hi
      exact (List.perm_cons b).mp (h1.trans h2)

theorem getElem?_swapL {α : Type} (l : List α) (i j k : Nat)
    (hi : i < l.length) (hj : j < l.length) :
    (swapL l i j)[k]? =
      if k = j then l[i]? else if k = i then l[j]? else l[k]? := by
  unfold swapL
  rw [List.getElem?_eq_getElem hi, List.getElem?_eq_getElem hj]
  simp only [List.getElem?_set, List.length_set]
  by_cases hkj : k = j
  · subst hkj
    rw [if_pos rfl, if_pos rfl, if_pos hj]
  · rw [if_neg (fun he => hkj he.symm), if_neg hkj]
    by_cases hki : k = i
    · subst hki
      rw [if_pos rfl, if_pos rfl, if_pos hi]
    · rw [if_neg (fun he => hki he.symm), if_neg hki]

/-- Child selection inside sift_down_range / sift_down_to_bottom: the left
child 2*pos+1, replaced by the right child when it exists and compares_le
holds between them (ties pick the right child). -/
def pickChild {T : Type} (cmp : Cmp T) (l : List (Nat × T)) (pos : Nat) : Nat :=
  match l[2*pos+1]?, l[2*pos+2]? with
  | some cl, some cr => if heapLe cmp cl cr then 2*pos+2 else 2*pos+1
  | _, _ => 2*pos+1

/-- Loop of sift_down_range over the whole vector, fuelled; the wrapper
siftDown supplies sufficient fuel. The hole moves are realized as swaps. -/
def siftDownF {T : Type} (cmp : Cmp T) : Nat → List (Nat × T) → Nat → List (Nat × T)
  | 0, l, _ => l
  | fuel+1, l, pos =>
    if 2*pos+1 < l.length then
      match l[pos]?, l[pickChild cmp l pos]? with
      | some e, some c =>
        if heapGe cmp e c then l
        else siftDownF cmp fuel (swapL l pos (pickChild cmp l pos)) (pickChild cmp l pos)
      | _, _ => l
    else l

/-- BinaryHeap::sift_down(pos) on the full vector. -/
def siftDown {T : Type} (cmp : Cmp T) (l : List (Nat × T)) (pos : Nat) : List (Nat × T) :=
  siftDownF cmp l.length l pos

/-- Unconditional descent of sift_down_to_bottom: the hole walks to the
bottom along selected children; returns the vector and the final hole. -/
def siftBottomF {T : Type} (cmp : Cmp T) :
    Nat → List (Nat × T) → Nat → List (Nat × T) × Nat
  | 0, l, pos => (l, pos)
  | fuel+1, l, pos =>
    if 2*pos+1 < l.length then
      siftBottomF cmp fuel (swapL l pos (pickChild cmp l pos)) (pickChild cmp l pos)
    else (l, pos)

/-- Loop of sift_up(start, pos), fuelled. -/
def siftUpF {T : Type} (cmp : Cmp T) : Nat → List (Nat × T) → Nat → Nat → List (Nat × T)
  | 0, l, _, _ => l
  | fuel+1, l, start, pos =>
    if start < pos then
      match l[pos]?, l[(pos-1)/2]? with
      | some e, some p =>
        if heapLe cmp e p then l
        else siftUpF cmp fuel (swapL l pos ((pos-1)/2)) start ((pos-1)/2)
      | _, _ => l
    else l

/-- BinaryHeap::sift_down_to_bottom(pos): descend to the bottom, then sift
the element back up towards the original position. -/
def siftDownToBottom {T : Type} (cmp : Cmp T) (l : List (Nat × T)) (pos : Nat) :
    List (Nat × T) :=
  let b := siftBottomF cmp l.length l pos
  siftUpF cmp (b.2 + 1) b.1 pos b.2

/-- BinaryHeap::pop on a heap whose root and remainder are known: data.pop()
removes the last vector element, which is swapped into the root slot and
sifted down to the bottom; rest is the vector without its root. -/
def popRoot {T : Type} (cmp : Cmp T) (rest : List (Nat × T)) : List (Nat × T) :=
  match rest.getLast? with
  | none => []
  | some last => siftDownToBottom cmp (last :: rest.dropLast) 0

/-- Loop of BinaryHeap::rebuild: sift_down at indices n-1, n-2, ..., 0. -/
def rebuildLoop {T : Type} (cmp : Cmp T) : List (Nat × T) → Nat → List (Nat × T)
  | l, 0 => l
  | l, n+1 => rebuildLoop cmp (siftDown cmp l n) n

/-- BinaryHeap::from_vec_cmp: heapify by rebuilding from len / 2. -/
def heapify {T : Type} (cmp : Cmp T) (l : List (Nat × T)) : List (Nat × T) :=
  rebuildLoop cmp l (l.length / 2)

section HeapLemmas

variable {T : Type} {cmp : Cmp T}

theorem pickChild_lower (cmp : Cmp T) (l : List (Nat × T)) (pos : Nat) :
    2*pos+1 ≤ pickChild cmp l pos ∧ pickChild cmp l pos ≤ 2*pos+2 := by
  unfold pickChild
  cases l[2*pos+1]? <;> cases l[2*pos+2]? <;> simp <;> split <;> omega

theorem pickChild_bound {l : List (Nat × T)} {pos : Nat}
    (h1 : 2*pos+1 < l.length) : pickChild cmp l pos < l.length := by
  unfold pickChild
  cases h2 : l[2*pos+2]? with
  | none => cases l[2*pos+1]? <;> simpa using h1
  | some cr =>
    have hlt : 2*pos+2 < l.length := (List.getElem?_eq_some.mp h2).1
    cases l[2*pos+1]? with
    | none => simpa using h1
    | some cl =>
      simp only
      split <;> omega

theorem length_siftDownF (fuel : Nat) (l : List (Nat × T)) (pos : Nat) :
    (siftDownF cmp fuel l pos).length = l.length := by
  induction fuel generalizing l pos with
  | zero => rfl
  | succ fuel ih =>
    unfold siftDownF
    split
    · split
      · split
        · rfl
        · rw [ih, length_swapL]
      · rfl
    · rfl

theorem siftDownF_perm (fuel : Nat) (l : List (Nat × T)) (pos : Nat) :
    (siftDownF cmp fuel l pos).Perm l := by
  induction fuel generalizing l pos with
  | zero => exact List.Perm.refl l
  | succ fuel ih =>
    unfold siftDownF
    split
    · split
      · split
        · exact List.Perm.refl l
        · exact (ih _ _).trans (swapL_perm l pos (pickChild cmp l pos))
      · exact List.Perm.refl l
    · exact List.Perm.refl l

theorem siftDown_perm (l : List (Nat × T)) (pos : Nat) :
    (siftDown cmp l pos).Perm l := siftDownF_perm l.length l pos

theorem length_siftDown (l : List (Nat × T)) (pos : Nat) :
    (siftDown cmp l pos).length = l.length := length_siftDownF l.length l pos

theorem siftBottomF_perm (fuel : Nat) (l : List (Nat × T)) (pos : Nat) :
    (siftBottomF cmp fuel l pos).1.Perm l := by
  induction fuel generalizing l pos with
  | zero => exact List.Perm.refl l
  | succ fuel ih =>
    unfold siftBottomF
    split
    · exact (ih _ _).trans (swapL_perm l pos (pickChild cmp l pos))
    · exact List.Perm.refl l

theorem siftUpF_perm (fuel : Nat) (l : List (Nat × T)) (start pos : Nat) :
    (siftUpF cmp fuel l start pos).Perm l := by
  induction fuel generalizing l pos with
  | zero => exact List.Perm.refl l
  | succ fuel ih =>
    unfold siftUpF
    split
    · split
      · split
        · exact List.Perm.refl l
        · exact (ih _ _).trans (swapL_perm l pos ((pos-1)/2))
      · exact List.Perm.refl l
    · exact List.Perm.refl l

theorem siftDownToBottom_perm (l : List (Nat × T)) (pos : Nat) :
    (siftDownToBottom cmp l pos).Perm l := by
  unfold siftDownToBottom
  exact (siftUpF_perm _ _ _ _).trans (siftBottomF_perm _ _ _)

theorem popRoot_perm (rest : List (Nat × T)) : (popRoot cmp rest).Perm rest := by
  unfold popRoot
  cases hl : rest.getLast? with
  | none =>
    rw [List.getLast?_eq_none_iff] at hl
    rw [hl]
  | some last =>
    have hrec : rest.dropLast ++ [last] = rest := List.dropLast_append_getLast? last hl
    have h1 : (last :: rest.dropLast).Perm rest := by
      calc (last :: rest.dropLast).Perm (rest.dropLast ++ [last]) := by
            simpa using (@List.perm_append_comm _ [last] rest.dropLast)
        _ = rest := hrec
    exact (siftDownToBottom_perm _ _).trans h1

theorem rebuildLoop_perm (l : List (Nat × T)) (n : Nat) :
    (rebuildLoop cmp l n).Perm l := by
  induction n generalizing l with
  | zero => exact List.Perm.refl l
  | succ n ih =>
    unfold rebuildLoop
    exact (ih _).trans (siftDown_perm l n)

theorem heapify_perm (l : List (Nat × T)) : (heapify cmp l).Perm l :=
  rebuildLoop_perm l (l.length / 2)

end HeapLemmas

/-- Heap edges whose parent index is at least start are ordered (max-heap in
the heapLe entry order, hence minimal value at the root). -/
def HeapFrom {T : Type} (cmp : Cmp T) (l : List (Nat × T)) (start : Nat) : Prop :=
  ∀ c e p, 0 < c → start ≤ (c-1)/2 →
    l[c]? = some e → l[(c-1)/2]? = some p → heapLe cmp e p

/-- The binary-heap invariant of binary_heap_plus on the backing vector. -/
def IsHeap {T : Type} (cmp : Cmp T) (l : List (Nat × T)) : Prop := HeapFrom cmp l 0

section HeapOrder

variable {T : Type} {cmp : Cmp T}

theorem isHeap_nil : IsHeap cmp [] := by
  intro c e p hc hs hce hcp
  simp at hce

theorem IsHeap.root_min (hlc : LawfulCmp cmp) {l : List (Nat × T)}
    (hh : IsHeap cmp l) {r : Nat × T} (hr : l[0]? = some r) :
    ∀ e ∈ l, heapLe cmp e r := by
  intro e he
  rw [List.mem_iff_getElem?] at he
  obtain ⟨n, hn⟩ := he
  induction n using Nat.strong_induction_on generalizing e with
  | _ n ih =>
    cases n with
    | zero =>
      rw [hn] at hr
      cases hr
      exact heapLe_refl hlc _
    | succ m =>
      have hlen : m + 1 < l.length := (List.getElem?_eq_some.mp hn).1
      have hplt : (m + 1 - 1)/2 < l.length := by omega
      have hp := List.getElem?_eq_getElem hplt
      have hedge : heapLe cmp e (l.get ⟨(m+1-1)/2, hplt⟩) := by
        have := hh (m+1) e (l.get ⟨(m+1-1)/2, hplt⟩) (by omega) (by omega) hn
        apply this
        rw [hp]
        rfl
      have hpar : heapLe cmp (l.get ⟨(m+1-1)/2, hplt⟩) r := by
        apply ih ((m+1-1)/2) (by omega)
        rw [hp]
        rfl
      exact heapLe_trans hlc hedge hpar

/-- Loop invariant of sift_down_range: the element sits at the hole, every
edge whose parent is in the active region and is not the hole is ordered,
and when the hole has moved its children fit below its parent. -/
structure SiftState (cmp : Cmp T) (l : List (Nat × T)) (start hole : Nat) : Prop where
  lower : start ≤ hole
  bounded : hole < l.length
  heap : ∀ c e p, 0 < c → start ≤ (c-1)/2 → (c-1)/2 ≠ hole →
    l[c]? = some e → l[(c-1)/2]? = some p → heapLe cmp e p
  upper : start < hole → ∀ c e q, (c-1)/2 = hole →
    l[c]? = some e → l[(hole-1)/2]? = some q → heapLe cmp e q

theorem siftState_initial {l : List (Nat × T)} {start : Nat}
    (hb : start < l.length) (hh : HeapFrom cmp l (start+1)) :
    SiftState cmp l start start := by
  refine ⟨Nat.le_refl _, hb, ?_, ?_⟩
  · intro c e p hc hs hne hce hcp
    exact hh c e p hc (by omega) hce hcp
  · intro habs
    omega

theorem SiftState.heapFrom_of_dominates {l : List (Nat × T)} {start hole : Nat}
    (st : SiftState cmp l start hole) {e : Nat × T} (he : l[hole]? = some e)
    (dom : ∀ c ec, 0 < c → (c-1)/2 = hole → l[c]? = some ec → heapLe cmp ec e) :
    HeapFrom cmp l start := by
  intro c ec p hc hs hce hcp
  by_cases hph : (c-1)/2 = hole
  · rw [hph, he] at hcp
    cases hcp
    exact dom c ec hc hph hce
  · exact st.heap c ec p hc hs hph hce hcp

theorem SiftState.heapFrom_of_no_left {l : List (Nat × T)} {start hole : Nat}
    (st : SiftState cmp l start hole) (h : ¬ 2*hole+1 < l.length) :
    HeapFrom cmp l start := by
  have he := List.getElem?_eq_getElem st.bounded
  apply st.heapFrom_of_dominates he
  intro c ec hc hpar hce
  have hcl : c < l.length := (List.getElem?_eq_some.mp hce).1
  omega

theorem pickChild_dom (hlc : LawfulCmp cmp) (l : List (Nat × T)) (pos : Nat)
    (h1 : 2*pos+1 < l.length) :
    ∃ mc, l[pickChild cmp l pos]? = some mc ∧
      ∀ c ec, 0 < c → (c-1)/2 = pos → l[c]? = some ec → heapLe cmp ec mc := by
  have hcl := List.getElem?_eq_getElem h1
  cases h2 : l[2*pos+2]? with
  | none =>
    refine ⟨l.get ⟨2*pos+1, h1⟩, ?_, ?_⟩
    · unfold pickChild
      rw [hcl, h2]
      exact hcl
    · intro c ec hc hpar hce
      have : c = 2*pos+1 ∨ c = 2*pos+2 := by omega
      rcases this with hcc | hcc
      · subst hcc
        rw [hcl] at hce
        cases hce
        exact heapLe_refl hlc _
      · subst hcc
        rw [h2] at hce
        cases hce
  | some cr =>
    by_cases hle : heapLe cmp (l[2*pos+1]) cr
    · refine ⟨cr, ?_, ?_⟩
      · unfold pickChild
        rw [hcl, h2]
        simp only [if_pos hle]
        exact h2
      · intro c ec hc hpar hce
        have : c = 2*pos+1 ∨ c = 2*pos+2 := by omega
        rcases this with hcc | hcc
        · subst hcc
          rw [hcl] at hce
          cases hce
          exact hle
        · subst hcc
          rw [h2] at hce
          cases hce
          exact heapLe_refl hlc _
    · refine ⟨l[2*pos+1], ?_, ?_⟩
      · unfold pickChild
        rw [hcl, h2]
        simp only [if_neg hle]
        exact hcl
      · intro c ec hc hpar hce
        have : c = 2*pos+1 ∨ c = 2*pos+2 := by omega
        rcases this with hcc | hcc
        · subst hcc
          rw [hcl] at hce
          cases hce
          exact heapLe_refl hlc _
        · subst hcc
          rw [h2] at hce
          cases hce
          exact heapLe_total hlc _ _ hle

theorem cons_getElem?_pos {α : Type} (a b : α) (l : List α) (k : Nat) (hk : 0 < k) :
    (a :: l)[k]? = (b :: l)[k]? := by
  cases k with
  | zero => omega
  | succ m => simp [List.getElem?_cons_succ]

theorem SiftState.siftState_swap_step (hlc : LawfulCmp cmp) {l : List (Nat × T)} {start hole : Nat}
    (st : SiftState cmp l start hole) (h1 : 2*hole+1 < l.length)
    {e mc : Nat × T} (he : l[hole]? = some e)
    (hmc : l[pickChild cmp l hole]? = some mc)
    (hdom : ∀ c ec, 0 < c → (c-1)/2 = hole → l[c]? = some ec → heapLe cmp ec mc)
    (hng : ¬ heapGe cmp e mc) :
    SiftState cmp (swapL l hole (pickChild cmp l hole)) start (pickChild cmp l hole) := by
  obtain ⟨hle_emc, hnle⟩ := not_heapGe hlc hng
  have hpcb : pickChild cmp l hole < l.length := pickChild_bound h1
  have hpcl := pickChild_lower cmp l hole
  have hhb : hole < l.length := st.bounded
  have hlow : start ≤ hole := st.lower
  have hpar : (pickChild cmp l hole - 1)/2 = hole := by omega
  have hsw := fun k => getElem?_swapL l hole (pickChild cmp l hole) k hhb hpcb
  refine ⟨by omega, by rw [length_swapL]; omega, ?_, ?_⟩
  · intro x ex px hx hsx hne hxe hxp
    rw [hsw x] at hxe
    rw [hsw ((x-1)/2)] at hxp
    by_cases hxpc : x = pickChild cmp l hole
    · subst hxpc
      rw [if_pos rfl] at hxe
      rw [he] at hxe
      cases hxe
      rw [hpar] at hxp
      rw [if_neg (by omega), if_pos rfl, hmc] at hxp
      cases hxp
      exact hle_emc
    · rw [if_neg hxpc] at hxe
      by_cases hxh : x = hole
      · subst hxh
        rw [if_pos rfl, hmc] at hxe
        cases hxe
        have hx0 : 0 < x := hx
        have hphlt : (x-1)/2 < x := by omega
        rw [if_neg (by omega), if_neg (by omega)] at hxp
        by_cases hsh : start < x
        · exact st.upper hsh _ mc px hpar hmc hxp
        · exfalso
          have : x = start := by omega
          omega
      · rw [if_neg hxh] at hxe
        by_cases hph : (x-1)/2 = hole
        · rw [hph] at hxp
          rw [if_neg (by omega), if_pos rfl, hmc] at hxp
          cases hxp
          exact hdom x ex hx hph hxe
        · rw [if_neg hne, if_neg hph] at hxp
          exact st.heap x ex px hx hsx hph hxe hxp
  · intro hstart x ex q hpx hxe hq
    have hx3 : 2 * (pickChild cmp l hole) + 1 ≤ x := by omega
    rw [hsw x] at hxe
    rw [if_neg (by omega), if_neg (by omega)] at hxe
    rw [hsw ((pickChild cmp l hole - 1)/2)] at hq
    rw [hpar] at hq
    rw [if_neg (by omega), if_pos rfl, hmc] at hq
    cases hq
    exact st.heap x ex mc (by omega) (by omega) (by omega) hxe (by rw [hpx]; exact hmc)

theorem siftDownF_heapFrom (hlc : LawfulCmp cmp) :
    ∀ (fuel : Nat) (l : List (Nat × T)) (start hole : Nat),
      l.length ≤ fuel + hole → SiftState cmp l start hole →
      HeapFrom cmp (siftDownF cmp fuel l hole) start := by
  intro fuel
  induction fuel with
  | zero =>
    intro l start hole hf st
    exact absurd st.bounded (by omega)
  | succ fuel ih =>
    intro l start hole hf st
    unfold siftDownF
    by_cases h1 : 2*hole+1 < l.length
    · rw [if_pos h1]
      have he := List.getElem?_eq_getElem st.bounded
      obtain ⟨mc, hmc, hdom⟩ := pickChild_dom hlc l hole h1
      simp only [he, hmc]
      by_cases hge : heapGe cmp (l[hole]) mc
      · simp only [if_pos hge]
        apply st.heapFrom_of_dominates he
        intro c ec hc hpar hce
        exact heapLe_trans hlc (hdom c ec hc hpar hce) (heapGe_elim hlc hge)
      · simp only [if_neg hge]
        apply ih
        · rw [length_swapL]
          have := pickChild_lower cmp l hole
          omega
        · exact st.siftState_swap_step hlc h1 he hmc hdom hge
    · rw [if_neg h1]
      exact st.heapFrom_of_no_left h1

theorem siftDown_heapFrom (hlc : LawfulCmp cmp) {l : List (Nat × T)} {start : Nat}
    (hb : start < l.length) (hh : HeapFrom cmp l (start+1)) :
    HeapFrom cmp (siftDown cmp l start) start :=
  siftDownF_heapFrom hlc l.length l start start (by omega) (siftState_initial hb hh)

theorem heapFrom_half (l : List (Nat × T)) : HeapFrom cmp l (l.length / 2) := by
  intro c e p hc hs hce hcp
  have := (List.getElem?_eq_some.mp hce).1
  omega

theorem rebuildLoop_isHeap (hlc : LawfulCmp cmp) :
    ∀ (n : Nat) (l : List (Nat × T)), n ≤ l.length →
      HeapFrom cmp l n → IsHeap cmp (rebuildLoop cmp l n) := by
  intro n
  induction n with
  | zero =>
    intro l hn hh
    exact hh
  | succ n ih =>
    intro l hn hh
    unfold rebuildLoop
    apply ih
    · rw [length_siftDown]
      omega
    · exact siftDown_heapFrom hlc (by omega) hh

theorem heapify_isHeap (hlc : LawfulCmp cmp) (l : List (Nat × T)) :
    IsHeap cmp (heapify cmp l) :=
  rebuildLoop_isHeap hlc (l.length/2) l (by omega) (heapFrom_half l)

theorem heapFrom_one_cons {e x : Nat × T} {rest : List (Nat × T)}
    (hh : IsHeap cmp (e :: rest)) : HeapFrom cmp (x :: rest) 1 := by
  intro c ec p hc hs hce hcp
  apply hh c ec p hc (by omega)
  · rw [← hce]
    exact (cons_getElem?_pos x e rest c (by omega)).symm
  · rw [← hcp]
    exact (cons_getElem?_pos x e rest ((c-1)/2) (by omega)).symm

/-- After replacing the root value in place (the PeekMut deref_mut + swap of
next()), sifting down from the root restores the heap invariant. -/
theorem siftDown_zero_isHeap (hlc : LawfulCmp cmp) {e x : Nat × T}
    {rest : List (Nat × T)} (hh : IsHeap cmp (e :: rest)) :
    IsHeap cmp (siftDown cmp (x :: rest) 0) :=
  siftDown_heapFrom hlc (by simp) (heapFrom_one_cons hh)

/-- Loop invariant of the descent phase of sift_down_to_bottom: the element
occupies the hole, every edge not touching the hole is ordered, and the
children of the hole fit below the hole's parent. Unlike SiftState, the edge
from the hole to its parent may be violated upward, to be repaired by
sift_up. The descent always starts at the root. -/
structure BState (cmp : Cmp T) (l : List (Nat × T)) (hole : Nat) : Prop where
  bounded : hole < l.length
  heap : ∀ c e p, 0 < c → c ≠ hole → (c-1)/2 ≠ hole →
    l[c]? = some e → l[(c-1)/2]? = some p → heapLe cmp e p
  upper : 0 < hole → ∀ c e q, (c-1)/2 = hole →
    l[c]? = some e → l[(hole-1)/2]? = some q → heapLe cmp e q

/-- Loop invariant of sift_up from a leaf hole: only the edge out of the
hole may be violated, and the hole's children fit below the hole's parent. -/
structure UState (cmp : Cmp T) (l : List (Nat × T)) (hole : Nat) : Prop where
  bounded : hole < l.length
  heap : ∀ c e p, 0 < c → c ≠ hole →
    l[c]? = some e → l[(c-1)/2]? = some p → heapLe cmp e p
  lower : 0 < hole → ∀ c e q, (c-1)/2 = hole →
    l[c]? = some e → l[(hole-1)/2]? = some q → heapLe cmp e q

theorem BState.bState_swap_step (hlc : LawfulCmp cmp) {l : List (Nat × T)} {hole : Nat}
    (bs : BState cmp l hole) (h1 : 2*hole+1 < l.length) :
    BState cmp (swapL l hole (pickChild cmp l hole)) (pickChild cmp l hole) := by
  obtain ⟨mc, hmc, hdom⟩ := pickChild_dom hlc l hole h1
  have hpcb : pickChild cmp l hole < l.length := pickChild_bound h1
  have hpcl := pickChild_lower cmp l hole
  have hhb : hole < l.length := bs.bounded
  have hpar : (pickChild cmp l hole - 1)/2 = hole := by omega
  have hsw := fun k => getElem?_swapL l hole (pickChild cmp l hole) k hhb hpcb
  refine ⟨by rw [length_swapL]; omega, ?_, ?_⟩
  · intro x ex px hx hxne hne hxe hxp
    rw [hsw x] at hxe
    rw [hsw ((x-1)/2)] at hxp
    rw [if_neg hxne] at hxe
    by_cases hxh : x = hole
    · subst hxh
      rw [if_pos rfl, hmc] at hxe
      cases hxe
      rw [if_neg (by omega), if_neg (by omega)] at hxp
      exact bs.upper hx _ mc px hpar hmc hxp
    · rw [if_neg hxh] at hxe
      by_cases hph : (x-1)/2 = hole
      · rw [hph] at hxp
        rw [if_neg (by omega), if_pos rfl, hmc] at hxp
        cases hxp
        exact hdom x ex hx hph hxe
      · rw [if_neg hne, if_neg hph] at hxp
        exact bs.heap x ex px hx hxh hph hxe hxp
  · intro hpos x ex q hpx hxe hq
    have hx3 : 2 * (pickChild cmp l hole) + 1 ≤ x := by omega
    rw [hsw x] at hxe
    rw [if_neg (by omega), if_neg (by omega)] at hxe
    rw [hsw ((pickChild cmp l hole - 1)/2)] at hq
    rw [hpar] at hq
    rw [if_neg (by omega), if_pos rfl, hmc] at hq
    cases hq
    exact bs.heap x ex mc (by omega) (by omega) (by omega) hxe (by rw [hpx]; exact hmc)

theorem BState.toUState {l : List (Nat × T)} {hole : Nat}
    (bs : BState cmp l hole) (h1 : ¬ 2*hole+1 < l.length) : UState cmp l hole := by
  refine ⟨bs.bounded, ?_, ?_⟩
  · intro c e p hc hcne hce hcp
    by_cases hph : (c-1)/2 = hole
    · exfalso
      have : c < l.length := (List.getElem?_eq_some.mp hce).1
      omega
    · exact bs.heap c e p hc hcne hph hce hcp
  · intro hpos c e q hpc hce hq
    exfalso
    have : c < l.length := (List.getElem?_eq_some.mp hce).1
    omega

theorem siftBottomF_spec (hlc : LawfulCmp cmp) :
    ∀ (fuel : Nat) (l : List (Nat × T)) (hole : Nat),
      l.length ≤ fuel + hole → BState cmp l hole →
      UState cmp (siftBottomF cmp fuel l hole).1 (siftBottomF cmp fuel l hole).2 := by
  intro fuel
  induction fuel with
  | zero =>
    intro l hole hf bs
    exact absurd bs.bounded (by omega)
  | succ fuel ih =>
    intro l hole hf bs
    unfold siftBottomF
    by_cases h1 : 2*hole+1 < l.length
    · rw [if_pos h1]
      apply ih
      · rw [length_swapL]
        have := pickChild_lower cmp l hole
        omega
      · exact bs.bState_swap_step hlc h1
    · rw [if_neg h1]
      exact bs.toUState h1

theorem UState.uState_swap_step (hlc : LawfulCmp cmp) {l : List (Nat × T)} {hole : Nat}
    (us : UState cmp l hole) (hpos : 0 < hole)
    {e p : Nat × T} (he : l[hole]? = some e) (hp : l[(hole-1)/2]? = some p)
    (hnl : ¬ heapLe cmp e p) :
    UState cmp (swapL l hole ((hole-1)/2)) ((hole-1)/2) := by
  have hple : heapLe cmp p e := heapLe_total hlc e p hnl
  have hhb : hole < l.length := us.bounded
  have hqb : (hole-1)/2 < l.length := by omega
  have hqlt : (hole-1)/2 < hole := by omega
  have hsw := fun k => getElem?_swapL l hole ((hole-1)/2) k hhb hqb
  refine ⟨by rw [length_swapL]; omega, ?_, ?_⟩
  · intro x ex px hx hxne hxe hxp
    rw [hsw x] at hxe
    rw [hsw ((x-1)/2)] at hxp
    rw [if_neg hxne] at hxe
    by_cases hxh : x = hole
    · subst hxh
      rw [if_pos rfl, hp] at hxe
      cases hxe
      rw [if_pos rfl] at hxp
      rw [he] at hxp
      cases hxp
      exact hple
    · rw [if_neg hxh] at hxe
      by_cases hph : (x-1)/2 = hole
      · rw [hph] at hxp
        rw [if_neg (by omega), if_pos rfl, hp] at hxp
        cases hxp
        exact us.lower hpos x ex p hph hxe hp
      · by_cases hpq : (x-1)/2 = (hole-1)/2
        · rw [hpq, if_pos rfl, he] at hxp
          cases hxp
          have hstep : heapLe cmp ex p := us.heap x ex p hx hxh hxe (by rw [hpq]; exact hp)
          exact heapLe_trans hlc hstep hple
        · rw [if_neg hpq, if_neg hph] at hxp
          exact us.heap x ex px hx hxh hxe hxp
  · intro hq x ex q hpx hxe hqv
    have hxcase : x = hole ∨ (x ≠ hole ∧ x ≠ (hole-1)/2) := by omega
    have hgp : ((hole-1)/2 - 1)/2 < (hole-1)/2 := by omega
    rw [hsw (((hole-1)/2 - 1)/2)] at hqv
    rw [if_neg (by omega), if_neg (by omega)] at hqv
    have hq_edge : heapLe cmp p q :=
      us.heap ((hole-1)/2) p q (by omega) (by omega) hp (by rw [← hpx] at hqv ⊢; exact hqv)
    rw [hsw x] at hxe
    rcases hxcase with hxh | ⟨hx1, hx2⟩
    · subst hxh
      rw [if_neg (by omega), if_pos rfl, hp] at hxe
      cases hxe
      exact hq_edge
    · rw [if_neg hx2, if_neg hx1] at hxe
      have hstep : heapLe cmp ex p := us.heap x ex p (by omega) hx1 hxe (by rw [hpx]; exact hp)
      exact heapLe_trans hlc hstep hq_edge

theorem UState.isHeap_of_stop {l : List (Nat × T)} {hole : Nat}
    (us : UState cmp l hole) {e p : Nat × T}
    (he : l[hole]? = some e) (hp : l[(hole-1)/2]? = some p)
    (hle : heapLe cmp e p) : IsHeap cmp l := by
  intro c ec pc hc hs hce hcp
  by_cases hch : c = hole
  · subst hch
    rw [he] at hce
    cases hce
    rw [hp] at hcp
    cases hcp
    exact hle
  · exact us.heap c ec pc hc hch hce hcp

theorem UState.isHeap_of_root {l : List (Nat × T)}
    (us : UState cmp l 0) : IsHeap cmp l := by
  intro c ec pc hc hs hce hcp
  exact us.heap c ec pc hc (by omega) hce hcp

theorem siftUpF_isHeap (hlc : LawfulCmp cmp) :
    ∀ (fuel : Nat) (l : List (Nat × T)) (pos : Nat),
      pos < fuel → UState cmp l pos → IsHeap cmp (siftUpF cmp fuel l 0 pos) := by
  intro fuel
  induction fuel with
  | zero =>
    intro l pos hf us
    omega
  | succ fuel ih =>
    intro l pos hf us
    unfold siftUpF
    by_cases h0 : 0 < pos
    · rw [if_pos h0]
      have hposb : pos < l.length := us.bounded
      have he := List.getElem?_eq_getElem hposb
      have hpb : (pos-1)/2 < l.length := by omega
      have hp := List.getElem?_eq_getElem hpb
      simp only [he, hp]
      by_cases hle : heapLe cmp (l[pos]) (l[(pos-1)/2])
      · simp only [if_pos hle]
        exact us.isHeap_of_stop he hp hle
      · simp only [if_neg hle]
        apply ih
        · omega
        · exact us.uState_swap_step hlc h0 he hp hle
    · rw [if_neg h0]
      have : pos = 0 := by omega
      subst this
      exact us.isHeap_of_root

theorem siftDownToBottom_isHeap (hlc : LawfulCmp cmp) {l : List (Nat × T)}
    (bs : BState cmp l 0) : IsHeap cmp (siftDownToBottom cmp l 0) := by
  unfold siftDownToBottom
  apply siftUpF_isHeap hlc
  · omega
  · exact siftBottomF_spec hlc l.length l 0 (by omega) bs

/-- BinaryHeap::pop restores the heap invariant: the last vector entry is
moved into the root slot and sifted down to the bottom, then up. -/
theorem popRoot_isHeap (hlc : LawfulCmp cmp) {r : Nat × T} {rest : List (Nat × T)}
    (hh : IsHeap cmp (r :: rest)) : IsHeap cmp (popRoot cmp rest) := by
  unfold popRoot
  cases hl : rest.getLast? with
  | none => exact isHeap_nil
  | some last =>
    apply siftDownToBottom_isHeap hlc
    have hlen : rest.length ≠ 0 := by
      intro habs
      rw [List.length_eq_zero] at habs
      subst habs
      simp at hl
    have hgl : ∀ k, 0 < k → k < rest.length →
        (last :: rest.dropLast)[k]? = (r :: rest)[k]? := by
      intro k hk hkl
      cases k with
      | zero => omega
      | succ m =>
        rw [List.getElem?_cons_succ, List.getElem?_cons_succ, List.getElem?_dropLast]
        rw [if_pos (by omega)]
    refine ⟨by simp, ?_, ?_⟩
    · intro c e p hc hcne hne hce hcp
      have hcl : c < (last :: rest.dropLast).length := (List.getElem?_eq_some.mp hce).1
      have hcl2 : c < rest.length := by
        simp only [List.length_cons, List.length_dropLast] at hcl
        omega
      apply hh c e p hc (by omega)
      · rw [← hce]
        exact (hgl c hc hcl2).symm
      · rw [← hcp]
        exact (hgl ((c-1)/2) (by omega) (by omega)).symm
    · intro hpos
      omega

end HeapOrder

/-- Shared state of MergeIterator and DetailedMergeIterator: both Rust
structs hold the borrowed sources, the comparator and the heap; the
comparator is passed explicitly here. Each inner list holds the elements
not yet pulled from that source. -/
structure MergeIterator (T : Type) where
  iters : List (List T)
  heap : List (Nat × T)

/-- Embedding of self.iters[i].next(): pull the next element of source i.
An out-of-range index behaves like an exhausted source; the source program
would panic there, and the invariant theorems show the case is unreachable. -/
def pullFrom {T : Type} (iters : List (List T)) (i : Nat) :
    Option T × List (List T) :=
  match iters[i]? with
  | some (x :: rest) => (some x, iters.set i rest)
  | _ => (none, iters)

/-- Total number of elements not yet pulled from the sources. -/
def sumLens {T : Type} (iters : List (List T)) : Nat := (iters.map List.length).sum

/-- Fuel that provably exceeds the number of iterations any tie loop can do. -/
def tieFuel {T : Type} (iters : List (List T)) (heap : List (Nat × T)) : Nat :=
  heap.length + sumLens iters + 1

/-- Tie loop of MergeIterator::next: while the heap root compares Equal to
res, advance that root's source (replace in place and sift down, or pop when
exhausted), discarding the tied values. -/
def tieLoop {T : Type} (cmp : Cmp T) : Nat → T → List (List T) → List (Nat × T) →
    List (List T) × List (Nat × T)
  | 0, _, iters, heap => (iters, heap)
  | fuel+1, res, iters, heap =>
    match heap with
    | [] => (iters, heap)
    | (j, w) :: rest =>
      if cmp res w = Ordering.eq then
        let p := pullFrom iters j
        match p.1 with
        | some x => tieLoop cmp fuel res p.2 (siftDown cmp ((j, x) :: rest) 0)
        | none => tieLoop cmp fuel res p.2 (popRoot cmp rest)
      else (iters, heap)

/-- MergeIterator::next: if the heap is nonempty, advance the root's source
(swap the pulled value into the root entry and sift down, or pop when the
source is exhausted), keep the old root value as res, run the tie loop, and
return res; on an empty heap return None and leave the state unchanged. -/
def MergeIterator.next {T : Type} (cmp : Cmp T) (s : MergeIterator T) :
    Option T × MergeIterator T :=
  match s.heap with
  | [] => (none, s)
  | (i, v) :: rest =>
    let p := pullFrom s.iters i
    let h2 :=
      match p.1 with
      | some x => siftDown cmp ((i, x) :: rest) 0
      | none => popRoot cmp rest
    let r := tieLoop cmp (tieFuel p.2 h2) v p.2 h2
    (some v, ⟨r.1, r.2⟩)

/-- Tie loop of DetailedMergeIterator::next: identical heap and source
operations, but each consumed tied root entry (j, w) is pushed onto the
details vector; in the replace branch the pushed value is the displaced old
value, in the pop branch the popped one, in both cases w. -/
def tieLoopD {T : Type} (cmp : Cmp T) : Nat → T → List (List T) → List (Nat × T) →
    List (Nat × T) → List (List T) × List (Nat × T) × List (Nat × T)
  | 0, _, iters, heap, details => (iters, heap, details)
  | fuel+1, res, iters, heap, details =>
    match heap with
    | [] => (iters, heap, details)
    | (j, w) :: rest =>
      if cmp res w = Ordering.eq then
        let p := pullFrom iters j
        match p.1 with
        | some x =>
          tieLoopD cmp fuel res p.2 (siftDown cmp ((j, x) :: rest) 0) (details ++ [(j, w)])
        | none =>
          tieLoopD cmp fuel res p.2 (popRoot cmp rest) (details ++ [(j, w)])
      else (iters, heap, details)

/-- DetailedMergeIterator::next: same control flow as MergeIterator::next;
the emitted group is the details collected by the tie loop followed by the
originally selected (i, res) pair, pushed last. -/
def DetailedMergeIterator.next {T : Type} (cmp : Cmp T) (s : MergeIterator T) :
    Option (List (Nat × T)) × MergeIterator T :=
  match s.heap with
  | [] => (none, s)
  | (i, v) :: rest =>
    let p := pullFrom s.iters i
    let h2 :=
      match p.1 with
      | some x => siftDown cmp ((i, x) :: rest) 0
      | none => popRoot cmp rest
    let r := tieLoopD cmp (tieFuel p.2 h2) v p.2 h2 []
    (some (r.2.2 ++ [(i, v)]), ⟨r.1, r.2.1⟩)

/-- Loop of merge_iters_by building the initial vector: for each source in
order, pull its first element and push (index, value) when present. -/
def initVec {T : Type} : List (List T) → Nat → List (Nat × T)
  | [], _ => []
  | s :: rest, n =>
    match s.head? with
    | some x => (n, x) :: initVec rest (n+1)
    | none => initVec rest (n+1)

/-- merge_iters_by: construct the iterator state; every source has its head
pulled into the initial vector, which from_vec_cmp heapifies. -/
def merge_iters_by {T : Type} (cmp : Cmp T) (iters : List (List T)) :
    MergeIterator T :=
  { iters := iters.map List.tail, heap := heapify cmp (initVec iters 0) }

/-- merge_iters: merge_iters_by with the natural order (stated on Nat). -/
def merge_iters (iters : List (List Nat)) : MergeIterator Nat :=
  merge_iters_by natCmp iters

/-- merge_iters_detailed_by: the detailed engine's constructor builds the
identical initial state. -/
def merge_iters_detailed_by {T : Type} (cmp : Cmp T) (iters : List (List T)) :
    MergeIterator T :=
  { iters := iters.map List.tail, heap := heapify cmp (initVec iters 0) }

/-- merge_iters_detailed: merge_iters_detailed_by with the natural order. -/
def merge_iters_detailed (iters : List (List Nat)) : MergeIterator Nat :=
  merge_iters_detailed_by natCmp iters

/-- Remaining work in a state; strictly decreases on every Some step. -/
def stateMeasure {T : Type} (s : MergeIterator T) : Nat :=
  s.heap.length + sumLens s.iters

/-- Collect the plain iterator until it signals completion, fuelled. -/
def mergeRunF {T : Type} (cmp : Cmp T) : Nat → MergeIterator T →
    List T × MergeIterator T
  | 0, s => ([], s)
  | fuel+1, s =>
    match MergeIterator.next cmp s with
    | (none, s2) => ([], s2)
    | (some v, s2) =>
      let r := mergeRunF cmp fuel s2
      (v :: r.1, r.2)

/-- Collect the detailed iterator until it signals completion, fuelled. -/
def detailedRunF {T : Type} (cmp : Cmp T) : Nat → MergeIterator T →
    List (List (Nat × T)) × MergeIterator T
  | 0, s => ([], s)
  | fuel+1, s =>
    match DetailedMergeIterator.next cmp s with
    | (none, s2) => ([], s2)
    | (some g, s2) =>
      let r := detailedRunF cmp fuel s2
      (g :: r.1, r.2)

/-- The sequence collected from merge_iters_by(iters, cmp). -/
def mergeOutput {T : Type} (cmp : Cmp T) (iters : List (List T)) : List T :=
  (mergeRunF cmp (stateMeasure (merge_iters_by cmp iters) + 1)
    (merge_iters_by cmp iters)).1

/-- The engine state after the collected run of the plain engine. -/
def mergeFinal {T : Type} (cmp : Cmp T) (iters : List (List T)) : MergeIterator T :=
  (mergeRunF cmp (stateMeasure (merge_iters_by cmp iters) + 1)
    (merge_iters_by cmp iters)).2

/-- The groups collected from merge_iters_detailed_by(iters, cmp). -/
def detailedOutput {T : Type} (cmp : Cmp T) (iters : List (List T)) :
    List (List (Nat × T)) :=
  (detailedRunF cmp (stateMeasure (merge_iters_detailed_by cmp iters) + 1)
    (merge_iters_detailed_by cmp iters)).1

/-- The engine state after the collected run of the detailed engine. -/
def detailedFinal {T : Type} (cmp : Cmp T) (iters : List (List T)) :
    MergeIterator T :=
  (detailedRunF cmp (stateMeasure (merge_iters_detailed_by cmp iters) + 1)
    (merge_iters_detailed_by cmp iters)).2

/-- Iterated calls of MergeIterator::next: result and state of call k+1. -/
def mergeStepIter {T : Type} (cmp : Cmp T) (s : MergeIterator T) :
    Nat → Option T × MergeIterator T
  | 0 => MergeIterator.next cmp s
  | k+1 => MergeIterator.next cmp (mergeStepIter cmp s k).2

/-- Iterated calls of DetailedMergeIterator::next. -/
def detailedStepIter {T : Type} (cmp : Cmp T) (s : MergeIterator T) :
    Nat → Option (List (Nat × T)) × MergeIterator T
  | 0 => DetailedMergeIterator.next cmp s
  | k+1 => DetailedMergeIterator.next cmp (detailedStepIter cmp s k).2

/-- Value pending in the heap for source j, when present. -/
def entryVal {T : Type} (h : List (Nat × T)) (j : Nat) : Option T :=
  (h.find? (fun p => p.1 == j)).map Prod.snd

/-- Elements source j can still deliver: its pending heap value, if any,
followed by the elements not yet pulled. -/
def remaining {T : Type} (s : MergeIterator T) (j : Nat) : List T :=
  (match entryVal s.heap j with
   | some v => [v]
   | none => []) ++ (s.iters[j]?.getD [])

/-- Engine invariant tying the heap to the sources. -/
structure Inv {T : Type} (cmp : Cmp T) (s : MergeIterator T) : Prop where
  isHeap : IsHeap cmp s.heap
  idxLt : ∀ e ∈ s.heap, e.1 < s.iters.length
  nodup : (s.heap.map Prod.fst).Nodup
  sorted : ∀ j v rem, (j, v) ∈ s.heap → s.iters[j]? = some rem →
    List.Chain' (ltc cmp) (v :: rem)
  absent : ∀ j rem, s.iters[j]? = some rem → (∀ v, (j, v) ∉ s.heap) → rem = []

section EngineLemmas

variable {T : Type} {cmp : Cmp T}

theorem ltc_chain_head (hlc : LawfulCmp cmp) :
    ∀ (L : List T) (v : T), List.Chain' (ltc cmp) (v :: L) → ∀ y ∈ L, ltc cmp v y := by
  intro L
  induction L with
  | nil =>
    intro v h y hy
    simp at hy
  | cons a L ih =>
    intro v h y hy
    rw [List.chain'_cons] at h
    rcases List.mem_cons.mp hy with rfl | hy2
    · exact h.1
    · exact hlc.lt_trans h.1 (ih a h.2 y hy2)

theorem entryVal_eq_none {h : List (Nat × T)} {j : Nat} :
    entryVal h j = none ↔ ∀ v, (j, v) ∉ h := by
  unfold entryVal
  rw [Option.map_eq_none', List.find?_eq_none]
  constructor
  · intro hf v hv
    have := hf (j, v) hv
    simp at this
  · intro hf p hp
    simp only [beq_iff_eq]
    intro habs
    exact hf p.2 (by rw [← habs]; exact hp)

theorem entryVal_eq_some {h : List (Nat × T)} (hn : (h.map Prod.fst).Nodup)
    {j : Nat} {v : T} : entryVal h j = some v ↔ (j, v) ∈ h := by
  constructor
  · intro he
    unfold entryVal at he
    rw [Option.map_eq_some'] at he
    obtain ⟨p, hp, hpv⟩ := he
    have hpm := List.mem_of_find?_eq_some hp
    have hpj := List.find?_some hp
    simp only [beq_iff_eq] at hpj
    subst hpv
    rw [← hpj]
    exact hpm
  · intro hm
    cases hf : entryVal h j with
    | none =>
      exact absurd hm (entryVal_eq_none.mp hf v)
    | some u =>
      unfold entryVal at hf
      rw [Option.map_eq_some'] at hf
      obtain ⟨p, hp, hpv⟩ := hf
      have hpm := List.mem_of_find?_eq_some hp
      have hpj := List.find?_some hp
      simp only [beq_iff_eq] at hpj
      have : (j, v) = p := by
        apply List.inj_on_of_nodup_map hn hm hpm
        rw [hpj]
      rw [← this] at hpv
      subst hpv
      rfl

theorem nodup_fst_of_filter (l : List (Nat × T))
    (h : ∀ j, (l.filter (fun p => p.1 == j)).length ≤ 1) :
    (l.map Prod.fst).Nodup := by
  induction l with
  | nil => simp
  | cons a t ih =>
    simp only [List.map_cons, List.nodup_cons]
    constructor
    · intro hmem
      obtain ⟨p, hp, hfst⟩ := List.mem_map.mp hmem
      have hlen := h a.1
      rw [List.filter_cons] at hlen
      rw [if_pos (by simp)] at hlen
      simp only [List.length_cons] at hlen
      have hpe : p ∈ t.filter (fun q => q.1 == a.1) :=
        List.mem_filter.mpr ⟨hp, by simp [hfst]⟩
      have : 0 < (t.filter (fun q => q.1 == a.1)).length :=
        List.length_pos.mpr (fun habs => by rw [habs] at hpe; simp at hpe)
      omega
    · apply ih
      intro j
      have hlen := h j
      rw [List.filter_cons] at hlen
      split at hlen
      · simp only [List.length_cons] at hlen
        omega
      · exact hlen

theorem pullFrom_length (iters : List (List T)) (i : Nat) :
    (pullFrom iters i).2.length = iters.length := by
  unfold pullFrom
  cases h : iters[i]? with
  | none => rfl
  | some L =>
    cases L with
    | nil => rfl
    | cons x rest => simp

theorem sumLens_set {iters : List (List T)} {i : Nat} {x : T} {rest : List T}
    (h : iters[i]? = some (x :: rest)) :
    sumLens (iters.set i rest) + 1 = sumLens iters := by
  induction iters generalizing i with
  | nil => simp at h
  | cons s t ih =>
    cases i with
    | zero =>
      simp only [List.getElem?_cons_zero, Option.some_inj] at h
      subst h
      simp only [List.set_cons_zero]
      unfold sumLens
      simp
      omega
    | succ m =>
      simp only [List.getElem?_cons_succ] at h
      simp only [List.set_cons_succ]
      unfold sumLens at *
      simp only [List.map_cons, List.sum_cons]
      have := ih h
      omega

theorem sumLens_getElem_le {iters : List (List T)} {i : Nat} {L : List T}
    (h : iters[i]? = some L) : L.length ≤ sumLens iters := by
  induction iters generalizing i with
  | nil => simp at h
  | cons s t ih =>
    cases i with
    | zero =>
      simp only [List.getElem?_cons_zero, Option.some_inj] at h
      subst h
      unfold sumLens
      simp
    | succ m =>
      simp only [List.getElem?_cons_succ] at h
      have := ih h
      unfold sumLens at *
      simp only [List.map_cons, List.sum_cons]
      omega

theorem initVec_fst_bounds :
    ∀ (srcs : List (List T)) (n : Nat) (p : Nat × T), p ∈ initVec srcs n →
      n ≤ p.1 ∧ p.1 < n + srcs.length := by
  intro srcs
  induction srcs with
  | nil =>
    intro n p hp
    simp [initVec] at hp
  | cons s t ih =>
    intro n p hp
    unfold initVec at hp
    cases hh : s.head? with
    | some x =>
      rw [hh] at hp
      rcases List.mem_cons.mp hp with rfl | hp2
      · simp only [List.length_cons]
        omega
      · have := ih (n+1) p hp2
        simp only [List.length_cons]
        omega
    | none =>
      rw [hh] at hp
      have := ih (n+1) p hp
      simp only [List.length_cons]
      omega

theorem initVec_mem_val :
    ∀ (srcs : List (List T)) (n i : Nat) (v : T), (i, v) ∈ initVec srcs n →
      ∃ src, srcs[i - n]? = some src ∧ src.head? = some v := by
  intro srcs
  induction srcs with
  | nil =>
    intro n i v hp
    simp [initVec] at hp
  | cons s t ih =>
    intro n i v hp
    unfold initVec at hp
    cases hh : s.head? with
    | some x =>
      rw [hh] at hp
      rcases List.mem_cons.mp hp with heq | hp2
      · have hi : i = n ∧ v = x := by
          constructor <;> [exact congrArg Prod.fst heq; exact congrArg Prod.snd heq]
        obtain ⟨rfl, rfl⟩ := hi
        refine ⟨s, ?_, hh⟩
        simp
      · have hge := (initVec_fst_bounds t (n+1) (i, v) hp2).1
        obtain ⟨src, hsrc, hhd⟩ := ih (n+1) i v hp2
        refine ⟨src, ?_, hhd⟩
        have : i - n = (i - (n+1)) + 1 := by omega
        rw [this, List.getElem?_cons_succ]
        exact hsrc
    | none =>
      rw [hh] at hp
      have hge := (initVec_fst_bounds t (n+1) (i, v) hp).1
      obtain ⟨src, hsrc, hhd⟩ := ih (n+1) i v hp
      refine ⟨src, ?_, hhd⟩
      have : i - n = (i - (n+1)) + 1 := by omega
      rw [this, List.getElem?_cons_succ]
      exact hsrc

theorem initVec_complete :
    ∀ (srcs : List (List T)) (n k : Nat) (src : List T) (v : T),
      srcs[k]? = some src → src.head? = some v → (n + k, v) ∈ initVec srcs n := by
  intro srcs
  induction srcs with
  | nil =>
    intro n k src v hk
    simp at hk
  | cons s t ih =>
    intro n k src v hk hv
    cases k with
    | zero =>
      simp only [List.getElem?_cons_zero, Option.some_inj] at hk
      subst hk
      unfold initVec
      rw [hv]
      simp
    | succ m =>
      simp only [List.getElem?_cons_succ] at hk
      have := ih (n+1) m src v hk hv
      unfold initVec
      cases hh : s.head? with
      | some x =>
        apply List.mem_cons_of_mem
        have he : n + (m + 1) = (n + 1) + m := by omega
        rw [he]
        exact this
      | none =>
        have he : n + (m + 1) = (n + 1) + m := by omega
        rw [he]
        exact this

theorem initVec_fst_pairwise :
    ∀ (srcs : List (List T)) (n : Nat),
      List.Pairwise (· < ·) ((initVec srcs n).map Prod.fst) := by
  intro srcs
  induction srcs with
  | nil =>
    intro n
    simp [initVec]
  | cons s t ih =>
    intro n
    unfold initVec
    cases hh : s.head? with
    | some x =>
      simp only [List.map_cons]
      rw [List.pairwise_cons]
      refine ⟨?_, ih (n+1)⟩
      intro m hm
      obtain ⟨p, hp, hpm⟩ := List.mem_map.mp hm
      have := (initVec_fst_bounds t (n+1) p hp).1
      omega
    | none =>
      exact ih (n+1)

theorem initVec_fst_nodup (srcs : List (List T)) (n : Nat) :
    ((initVec srcs n).map Prod.fst).Nodup :=
  (initVec_fst_pairwise srcs n).imp (fun h => Nat.ne_of_lt h)

theorem mem_init_heap_iff (cmp : Cmp T) (srcs : List (List T)) (p : Nat × T) :
    p ∈ (merge_iters_by cmp srcs).heap ↔ p ∈ initVec srcs 0 :=
  (heapify_perm (initVec srcs 0)).mem_iff

theorem init_heap_nodup (cmp : Cmp T) (srcs : List (List T)) :
    ((merge_iters_by cmp srcs).heap.map Prod.fst).Nodup := by
  have hperm := (@heapify_perm T cmp (initVec srcs 0)).map Prod.fst
  exact hperm.nodup_iff.mpr (initVec_fst_nodup srcs 0)

theorem inv_init (hlc : LawfulCmp cmp) (srcs : List (List T))
    (hs : ∀ src ∈ srcs, List.Chain' (ltc cmp) src) :
    Inv cmp (merge_iters_by cmp srcs) := by
  refine ⟨heapify_isHeap hlc _, ?_, init_heap_nodup cmp srcs, ?_, ?_⟩
  · intro e he
    rw [mem_init_heap_iff] at he
    have := (initVec_fst_bounds srcs 0 e he).2
    simp only [merge_iters_by, List.length_map]
    omega
  · intro j v rem hjv hrem
    rw [mem_init_heap_iff] at hjv
    obtain ⟨src, hsrc, hhd⟩ := initVec_mem_val srcs 0 j v hjv
    rw [Nat.sub_zero] at hsrc
    simp only [merge_iters_by, List.getElem?_map, hsrc, Option.map_some'] at hrem
    cases hrem
    cases src with
    | nil => simp at hhd
    | cons a tl =>
      simp only [List.head?_cons, Option.some_inj] at hhd
      subst hhd
      simp only [List.tail_cons]
      exact hs (a :: tl) (List.mem_iff_getElem?.mpr ⟨j, hsrc⟩)
  · intro j rem hrem habs
    simp only [merge_iters_by, List.getElem?_map] at hrem
    cases hsrc : srcs[j]? with
    | none =>
      rw [hsrc] at hrem
      simp at hrem
    | some src =>
      rw [hsrc] at hrem
      simp only [Option.map_some', Option.some_inj] at hrem
      cases hhd : src.head? with
      | some v =>
        exfalso
        have := initVec_complete srcs 0 j src v hsrc hhd
        rw [Nat.zero_add] at this
        exact habs v ((mem_init_heap_iff cmp srcs (j, v)).mpr this)
      | none =>
        cases src with
        | nil =>
          rw [← hrem]
          rfl
        | cons a tl => simp at hhd

theorem remaining_init (cmp : Cmp T) (srcs : List (List T)) (j : Nat) :
    remaining (merge_iters_by cmp srcs) j = (srcs[j]?).getD [] := by
  unfold remaining
  cases hsrc : srcs[j]? with
  | none =>
    have hlen : srcs.length ≤ j := by
      by_contra hlt
      rw [List.getElem?_eq_getElem (by omega)] at hsrc
      exact Option.noConfusion hsrc
    have hnone : entryVal (merge_iters_by cmp srcs).heap j = none := by
      rw [entryVal_eq_none]
      intro v hv
      rw [mem_init_heap_iff] at hv
      have := (initVec_fst_bounds srcs 0 (j, v) hv).2
      omega
    rw [hnone]
    simp only [merge_iters_by, List.getElem?_map, hsrc]
    rfl
  | some src =>
    have hit : (merge_iters_by cmp srcs).iters[j]? = some src.tail := by
      simp only [merge_iters_by, List.getElem?_map, hsrc, Option.map_some']
    cases src with
    | nil =>
      have hnone : entryVal (merge_iters_by cmp srcs).heap j = none := by
        rw [entryVal_eq_none]
        intro v hv
        rw [mem_init_heap_iff] at hv
        obtain ⟨src2, hsrc2, hhd⟩ := initVec_mem_val srcs 0 j v hv
        rw [Nat.sub_zero, hsrc] at hsrc2
        cases hsrc2
        simp at hhd
      rw [hnone, hit]
      rfl
    | cons a tl =>
      have hmem : (j, a) ∈ (merge_iters_by cmp srcs).heap := by
        rw [mem_init_heap_iff]
        have := initVec_complete srcs 0 j (a :: tl) a hsrc rfl
        rw [Nat.zero_add] at this
        exact this
      have hsome : entryVal (merge_iters_by cmp srcs).heap j = some a :=
        (entryVal_eq_some (init_heap_nodup cmp srcs)).mpr hmem
      rw [hsome, hit]
      rfl

theorem root_min_engine (hlc : LawfulCmp cmp) {iters : List (List T)} {j : Nat}
    {w : T} {rest : List (Nat × T)} (hinv : Inv cmp ⟨iters, (j, w) :: rest⟩) :
    ∀ e ∈ (j, w) :: rest, lec cmp w e.2 := by
  have hmin := hinv.isHeap.root_min hlc (show ((j, w) :: rest)[0]? = some (j, w) by simp)
  intro e he
  exact hmin e he

theorem ltc_remaining_of_strict (hlc : LawfulCmp cmp) {s : MergeIterator T}
    (hinv : Inv cmp s) {res : T} (hstrict : ∀ e ∈ s.heap, ltc cmp res e.2) :
    ∀ j x, x ∈ remaining s j → ltc cmp res x := by
  intro j x hx
  unfold remaining at hx
  rw [List.mem_append] at hx
  rcases hx with hx | hx
  · cases he : entryVal s.heap j with
    | none =>
      rw [he] at hx
      simp at hx
    | some v =>
      rw [he] at hx
      simp only [List.mem_singleton] at hx
      subst hx
      exact hstrict (j, x) ((entryVal_eq_some hinv.nodup).mp he)
  · cases hit : s.iters[j]? with
    | none =>
      rw [hit] at hx
      simp at hx
    | some rem =>
      rw [hit] at hx
      simp only [Option.getD_some] at hx
      cases he : entryVal s.heap j with
      | none =>
        have := hinv.absent j rem hit (entryVal_eq_none.mp he)
        subst this
        simp at hx
      | some v =>
        have hvm := (entryVal_eq_some hinv.nodup).mp he
        have hchain := hinv.sorted j v rem hvm hit
        have hvx : ltc cmp v x := ltc_chain_head hlc rem v hchain x hx
        exact hlc.lt_trans (hstrict (j, v) hvm) hvx

theorem lec_remaining_of_root (hlc : LawfulCmp cmp) {s : MergeIterator T}
    (hinv : Inv cmp s) {res : T} (hle : ∀ e ∈ s.heap, lec cmp res e.2) :
    ∀ j x, x ∈ remaining s j → lec cmp res x := by
  intro j x hx
  unfold remaining at hx
  rw [List.mem_append] at hx
  rcases hx with hx | hx
  · cases he : entryVal s.heap j with
    | none =>
      rw [he] at hx
      simp at hx
    | some v =>
      rw [he] at hx
      simp only [List.mem_singleton] at hx
      subst hx
      exact hle (j, x) ((entryVal_eq_some hinv.nodup).mp he)
  · cases hit : s.iters[j]? with
    | none =>
      rw [hit] at hx
      simp at hx
    | some rem =>
      rw [hit] at hx
      simp only [Option.getD_some] at hx
      cases he : entryVal s.heap j with
      | none =>
        have := hinv.absent j rem hit (entryVal_eq_none.mp he)
        subst this
        simp at hx
      | some v =>
        have hvm := (entryVal_eq_some hinv.nodup).mp he
        have hchain := hinv.sorted j v rem hvm hit
        have hvx : ltc cmp v x := ltc_chain_head hlc rem v hchain x hx
        exact lec_of_ltc (hlc.lt_of_le_of_lt (hle (j, v) hvm) hvx)

theorem not_mem_remaining_of_strict (hlc : LawfulCmp cmp) {s : MergeIterator T}
    (hinv : Inv cmp s) {res : T} (hstrict : ∀ e ∈ s.heap, ltc cmp res e.2) :
    ∀ j, res ∉ remaining s j := by
  intro j hmem
  exact hlc.ne_of_lt (ltc_remaining_of_strict hlc hinv hstrict j res hmem) rfl

theorem entryVal_congr {h1 h2 : List (Nat × T)} (hn1 : (h1.map Prod.fst).Nodup)
    (hn2 : (h2.map Prod.fst).Nodup) (j : Nat)
    (hmem : ∀ v, (j, v) ∈ h1 ↔ (j, v) ∈ h2) : entryVal h1 j = entryVal h2 j := by
  cases he : entryVal h1 j with
  | none =>
    cases he2 : entryVal h2 j with
    | none => rfl
    | some v =>
      exfalso
      have := (hmem v).mpr ((entryVal_eq_some hn2).mp he2)
      exact entryVal_eq_none.mp he v this
  | some v =>
    exact ((entryVal_eq_some hn2).mpr ((hmem v).mp ((entryVal_eq_some hn1).mp he))).symm

/-- Advancing the root's source when a next value exists: swap it into the
root entry, sift down. State invariant and bookkeeping. -/
theorem replace_inv (hlc : LawfulCmp cmp) {iters : List (List T)} {j : Nat}
    {w : T} {rest : List (Nat × T)} (hinv : Inv cmp ⟨iters, (j, w) :: rest⟩)
    {x : T} {tl : List T} (hj : iters[j]? = some (x :: tl)) :
    Inv cmp ⟨iters.set j tl, siftDown cmp ((j, x) :: rest) 0⟩ ∧
    (∀ e, e ∈ siftDown cmp ((j, x) :: rest) 0 ↔ (e = (j, x) ∨ e ∈ rest)) ∧
    (siftDown cmp ((j, x) :: rest) 0).length = rest.length + 1 ∧
    sumLens (iters.set j tl) + 1 = sumLens iters ∧
    (iters.set j tl).length = iters.length := by
  have hperm := @siftDown_perm T cmp ((j, x) :: rest) 0
  have hmem : ∀ e, e ∈ siftDown cmp ((j, x) :: rest) 0 ↔ (e = (j, x) ∨ e ∈ rest) := by
    intro e
    rw [hperm.mem_iff]
    exact List.mem_cons
  have hjlt : j < iters.length := hinv.idxLt (j, w) (by simp)
  have hnd : ((siftDown cmp ((j, x) :: rest) 0).map Prod.fst).Nodup := by
    apply (hperm.map Prod.fst).nodup_iff.mpr
    have := hinv.nodup
    simpa using this
  have hjrest : ∀ u, (j, u) ∉ rest := by
    intro u hu
    have := hinv.nodup
    simp only [List.map_cons, List.nodup_cons] at this
    exact this.1 (List.mem_map.mpr ⟨(j, u), hu, rfl⟩)
  refine ⟨⟨?_, ?_, hnd, ?_, ?_⟩, hmem, ?_, sumLens_set hj, List.length_set iters j tl⟩
  · exact siftDown_zero_isHeap hlc hinv.isHeap
  · intro e he
    rw [hmem] at he
    simp only [List.length_set]
    rcases he with rfl | he
    · exact hjlt
    · exact hinv.idxLt e (List.mem_cons_of_mem _ he)
  · intro k u rem hku hkrem
    rcases (hmem (k, u)).mp hku with heq | hk
    · have hkj : k = j := congrArg Prod.fst heq
      subst hkj
      have hux : u = x := congrArg Prod.snd heq
      subst hux
      rw [List.getElem?_set_self hjlt] at hkrem
      cases hkrem
      have hchain := hinv.sorted k w (u :: tl) (by simp) hj
      rw [List.chain'_cons] at hchain
      exact hchain.2
    · have hkj : k ≠ j := by
        intro habs
        subst habs
        exact hjrest u hk
      rw [List.getElem?_set_ne (fun habs => hkj habs.symm)] at hkrem
      exact hinv.sorted k u rem (List.mem_cons_of_mem _ hk) hkrem
  · intro k rem hkrem habs
    by_cases hkj : k = j
    · subst hkj
      exact absurd ((hmem (k, x)).mpr (Or.inl rfl)) (habs x)
    · rw [List.getElem?_set_ne (fun habs2 => hkj habs2.symm)] at hkrem
      apply hinv.absent k rem hkrem
      intro v hv
      rcases List.mem_cons.mp hv with heq | hv2
      · exact hkj (congrArg Prod.fst heq)
      · exact habs v ((hmem (k, v)).mpr (Or.inr hv2))
  · rw [length_siftDown]
    simp

/-- Advancing the root's source when it is exhausted: pop the root. -/
theorem pop_inv (hlc : LawfulCmp cmp) {iters : List (List T)} {j : Nat}
    {w : T} {rest : List (Nat × T)} (hinv : Inv cmp ⟨iters, (j, w) :: rest⟩)
    (hj : iters[j]? = some []) :
    Inv cmp ⟨iters, popRoot cmp rest⟩ ∧
    (∀ e, e ∈ popRoot cmp rest ↔ e ∈ rest) ∧
    (popRoot cmp rest).length = rest.length := by
  have hperm := @popRoot_perm T cmp rest
  have hmem : ∀ e, e ∈ popRoot cmp rest ↔ e ∈ rest := fun e => hperm.mem_iff
  have hnd0 := hinv.nodup
  simp only [List.map_cons, List.nodup_cons] at hnd0
  have hnd : ((popRoot cmp rest).map Prod.fst).Nodup :=
    (hperm.map Prod.fst).nodup_iff.mpr hnd0.2
  refine ⟨⟨?_, ?_, hnd, ?_, ?_⟩, hmem, hperm.length_eq⟩
  · exact popRoot_isHeap hlc hinv.isHeap
  · intro e he
    exact hinv.idxLt e (List.mem_cons_of_mem _ ((hmem e).mp he))
  · intro k u rem hku hkrem
    exact hinv.sorted k u rem (List.mem_cons_of_mem _ ((hmem (k, u)).mp hku)) hkrem
  · intro k rem hkrem habs
    by_cases hkj : k = j
    · subst hkj
      rw [hj] at hkrem
      cases hkrem
      rfl
    · apply hinv.absent k rem hkrem
      intro v hv
      rcases List.mem_cons.mp hv with heq | hv2
      · exact hkj (congrArg Prod.fst heq)
      · exact habs v ((hmem (k, v)).mpr hv2)

theorem remaining_congr {s1 s2 : MergeIterator T}
    (hn1 : (s1.heap.map Prod.fst).Nodup) (hn2 : (s2.heap.map Prod.fst).Nodup)
    (j : Nat) (hmem : ∀ v, (j, v) ∈ s1.heap ↔ (j, v) ∈ s2.heap)
    (hit : s1.iters[j]? = s2.iters[j]?) : remaining s1 j = remaining s2 j := by
  unfold remaining
  rw [entryVal_congr hn1 hn2 j hmem, hit]

theorem remaining_root {iters : List (List T)} {j : Nat} {w : T}
    {rest : List (Nat × T)} :
    remaining ⟨iters, (j, w) :: rest⟩ j = w :: (iters[j]?.getD []) := by
  unfold remaining entryVal
  rw [List.find?_cons_of_pos _ (by simp)]
  rfl

theorem tieLoopD_spec (hlc : LawfulCmp cmp) :
    ∀ (fuel : Nat) (iters : List (List T)) (heap : List (Nat × T)) (res : T)
      (details : List (Nat × T)),
      heap.length + sumLens iters < fuel →
      Inv cmp ⟨iters, heap⟩ →
      (∀ e ∈ heap, lec cmp res e.2) →
      ∃ extra iters2 heap2,
        tieLoopD cmp fuel res iters heap details = (iters2, heap2, details ++ extra) ∧
        Inv cmp ⟨iters2, heap2⟩ ∧
        (∀ e ∈ heap2, ltc cmp res e.2) ∧
        (∀ p ∈ extra, p.2 = res ∧ p.1 < iters.length) ∧
        (∀ j, res ∈ remaining ⟨iters, heap⟩ j →
          extra.filter (fun p => p.1 == j) = [(j, res)]) ∧
        (∀ j, res ∉ remaining ⟨iters, heap⟩ j →
          extra.filter (fun p => p.1 == j) = []) ∧
        (∀ j, res ∈ remaining ⟨iters, heap⟩ j →
          remaining ⟨iters, heap⟩ j = res :: remaining ⟨iters2, heap2⟩ j) ∧
        (∀ j, res ∉ remaining ⟨iters, heap⟩ j →
          remaining ⟨iters2, heap2⟩ j = remaining ⟨iters, heap⟩ j) ∧
        heap2.length + sumLens iters2 ≤ heap.length + sumLens iters ∧
        heap2.length ≤ heap.length ∧
        iters2.length = iters.length := by
  intro fuel
  induction fuel with
  | zero =>
    intro iters heap res details hf hinv hle
    exact absurd hf (by omega)
  | succ fuel ih =>
    intro iters heap res details hf hinv hle
    cases heap with
    | nil =>
      have hrem : ∀ j2, remaining ⟨iters, ([] : List (Nat × T))⟩ j2 = [] := by
        intro j2
        unfold remaining entryVal
        simp only [List.find?_nil, Option.map_none']
        cases hit : iters[j2]? with
        | none => rfl
        | some rem =>
          have := hinv.absent j2 rem hit (by intro v hv; simp at hv)
          subst this
          rfl
      refine ⟨[], iters, [], by rw [List.append_nil]; rfl, hinv, by simp, by simp,
        ?_, ?_, ?_, ?_, by omega, by omega, rfl⟩
      · intro j2 hmem
        rw [hrem j2] at hmem
        simp at hmem
      · intro j2 hmem
        rfl
      · intro j2 hmem
        rw [hrem j2] at hmem
        simp at hmem
      · intro j2 hmem
        rfl
    | cons hd rest =>
      obtain ⟨j, w⟩ := hd
      have hroot := root_min_engine hlc hinv
      by_cases heq : cmp res w = Ordering.eq
      · -- tie: consume the root
        have hwres : res = w := hlc.eq_iff res w heq
        subst hwres
        have hjlt : j < iters.length := hinv.idxLt (j, res) (by simp)
        cases hj : iters[j]? with
        | none =>
          rw [List.getElem?_eq_getElem hjlt] at hj
          exact Option.noConfusion hj
        | some L =>
          cases L with
          | cons x tl =>
            -- replace the root entry in place and sift down
            obtain ⟨hmid_inv, hmid_mem, hmid_len, hmid_sum, hmid_ilen⟩ :=
              replace_inv hlc hinv hj
            have hchain0 := hinv.sorted j res (x :: tl) (by simp) hj
            have hltx : ltc cmp res x := (List.chain'_cons.mp hchain0).1
            have hmid_le : ∀ e ∈ siftDown cmp ((j, x) :: rest) 0, lec cmp res e.2 := by
              intro e he
              rcases (hmid_mem e).mp he with rfl | he2
              · exact lec_of_ltc hltx
              · exact hroot e (List.mem_cons_of_mem _ he2)
            have hf0 : ((j, res) :: rest).length + sumLens iters < fuel + 1 := hf
            have hfuel2 : (siftDown cmp ((j, x) :: rest) 0).length +
                sumLens (iters.set j tl) < fuel := by
              rw [hmid_len]
              simp only [List.length_cons] at hf0
              omega
            obtain ⟨extra2, iters2, heap2, hrec, hinv2, hstrict2, hprops2, hfilin2,
              hfilout2, hremin2, hremout2, hms2, hhl2, hil2⟩ :=
              ih (iters.set j tl) (siftDown cmp ((j, x) :: rest) 0) res
                (details ++ [(j, res)]) hfuel2 hmid_inv hmid_le
            have hmidj : remaining ⟨iters.set j tl, siftDown cmp ((j, x) :: rest) 0⟩ j
                = x :: tl := by
              unfold remaining
              rw [(entryVal_eq_some hmid_inv.nodup).mpr ((hmid_mem (j, x)).mpr (Or.inl rfl))]
              have : (iters.set j tl)[j]? = some tl := List.getElem?_set_self hjlt
              rw [this]
              rfl
            have hsj : remaining ⟨iters, (j, res) :: rest⟩ j = res :: x :: tl := by
              rw [remaining_root, hj]
              rfl
            have hall := ltc_chain_head hlc (x :: tl) res hchain0
            have hnomidj : res ∉
                remaining ⟨iters.set j tl, siftDown cmp ((j, x) :: rest) 0⟩ j := by
              rw [hmidj]
              intro hmem
              exact hlc.ne_of_lt (hall res hmem) rfl
            have hcongr : ∀ j2, j2 ≠ j →
                remaining ⟨iters, (j, res) :: rest⟩ j2 =
                remaining ⟨iters.set j tl, siftDown cmp ((j, x) :: rest) 0⟩ j2 := by
              intro j2 hne
              apply remaining_congr hinv.nodup hmid_inv.nodup
              · intro v
                rw [hmid_mem (j2, v)]
                constructor
                · intro hv
                  rcases List.mem_cons.mp hv with heq2 | hv2
                  · exact absurd (congrArg Prod.fst heq2) hne
                  · exact Or.inr hv2
                · intro hv
                  rcases hv with heq2 | hv2
                  · exact absurd (congrArg Prod.fst heq2) hne
                  · exact List.mem_cons_of_mem _ hv2
              · exact (List.getElem?_set_ne (fun habs => hne habs.symm)).symm
            refine ⟨(j, res) :: extra2, iters2, heap2, ?_, hinv2, hstrict2, ?_,
              ?_, ?_, ?_, ?_, ?_, ?_, ?_⟩
            · have hstep : tieLoopD cmp (fuel+1) res iters ((j, res) :: rest) details =
                  tieLoopD cmp fuel res (iters.set j tl)
                    (siftDown cmp ((j, x) :: rest) 0) (details ++ [(j, res)]) := by
                simp only [tieLoopD]
                rw [if_pos heq]
                simp only [pullFrom, hj]
              rw [hstep, hrec, List.append_assoc, List.singleton_append]
            · intro p hp
              rcases List.mem_cons.mp hp with rfl | hp2
              · exact ⟨rfl, hjlt⟩
              · have := hprops2 p hp2
                rw [hmid_ilen] at this
                exact this
            · intro j2 hmem2
              by_cases hj2 : j2 = j
              · subst hj2
                rw [List.filter_cons, if_pos (by simp)]
                rw [hfilout2 j2 hnomidj]
              · rw [List.filter_cons, if_neg (by simp [Ne.symm hj2])]
                rw [hcongr j2 hj2] at hmem2
                exact hfilin2 j2 hmem2
            · intro j2 hmem2
              by_cases hj2 : j2 = j
              · subst hj2
                exfalso
                apply hmem2
                rw [hsj]
                simp
              · rw [List.filter_cons, if_neg (by simp [Ne.symm hj2])]
                rw [hcongr j2 hj2] at hmem2
                exact hfilout2 j2 hmem2
            · intro j2 hmem2
              by_cases hj2 : j2 = j
              · subst hj2
                rw [hsj, hremout2 j2 hnomidj, hmidj]
              · rw [hcongr j2 hj2] at hmem2 ⊢
                exact hremin2 j2 hmem2
            · intro j2 hmem2
              by_cases hj2 : j2 = j
              · subst hj2
                exfalso
                apply hmem2
                rw [hsj]
                simp
              · rw [hcongr j2 hj2] at hmem2 ⊢
                exact hremout2 j2 hmem2
            · rw [hmid_len] at hms2
              simp only [List.length_cons]
              omega
            · rw [hmid_len] at hhl2
              simp only [List.length_cons]
              omega
            · rw [hmid_ilen] at hil2
              exact hil2
          | nil =>
            -- the root's source is exhausted: pop
            obtain ⟨hmid_inv, hmid_mem, hmid_len⟩ := pop_inv hlc hinv hj
            have hmid_le : ∀ e ∈ popRoot cmp rest, lec cmp res e.2 := by
              intro e he
              exact hroot e (List.mem_cons_of_mem _ ((hmid_mem e).mp he))
            have hf0 : ((j, res) :: rest).length + sumLens iters < fuel + 1 := hf
            have hfuel2 : (popRoot cmp rest).length + sumLens iters < fuel := by
              rw [hmid_len]
              simp only [List.length_cons] at hf0
              omega
            obtain ⟨extra2, iters2, heap2, hrec, hinv2, hstrict2, hprops2, hfilin2,
              hfilout2, hremin2, hremout2, hms2, hhl2, hil2⟩ :=
              ih iters (popRoot cmp rest) res (details ++ [(j, res)]) hfuel2 hmid_inv hmid_le
            have hjrest : ∀ u, (j, u) ∉ rest := by
              intro u hu
              have := hinv.nodup
              simp only [List.map_cons, List.nodup_cons] at this
              exact this.1 (List.mem_map.mpr ⟨(j, u), hu, rfl⟩)
            have hmidj : remaining ⟨iters, popRoot cmp rest⟩ j = [] := by
              unfold remaining
              have hnone : entryVal (popRoot cmp rest) j = none := by
                rw [entryVal_eq_none]
                intro v hv
                exact hjrest v ((hmid_mem (j, v)).mp hv)
              rw [hnone, hj]
              rfl
            have hsj : remaining ⟨iters, (j, res) :: rest⟩ j = [res] := by
              rw [remaining_root, hj]
              rfl
            have hnomidj : res ∉ remaining ⟨iters, popRoot cmp rest⟩ j := by
              rw [hmidj]
              simp
            have hcongr : ∀ j2, j2 ≠ j →
                remaining ⟨iters, (j, res) :: rest⟩ j2 =
                remaining ⟨iters, popRoot cmp rest⟩ j2 := by
              intro j2 hne
              apply remaining_congr hinv.nodup hmid_inv.nodup
              · intro v
                rw [hmid_mem (j2, v)]
                constructor
                · intro hv
                  rcases List.mem_cons.mp hv with heq2 | hv2
                  · exact absurd (congrArg Prod.fst heq2) hne
                  · exact hv2
                · intro hv
                  exact List.mem_cons_of_mem _ hv
              · rfl
            refine ⟨(j, res) :: extra2, iters2, heap2, ?_, hinv2, hstrict2, ?_,
              ?_, ?_, ?_, ?_, ?_, ?_, ?_⟩
            · have hstep : tieLoopD cmp (fuel+1) res iters ((j, res) :: rest) details =
                  tieLoopD cmp fuel res iters (popRoot cmp rest) (details ++ [(j, res)]) := by
                simp only [tieLoopD]
                rw [if_pos heq]
                simp only [pullFrom, hj]
              rw [hstep, hrec, List.append_assoc, List.singleton_append]
            · intro p hp
              rcases List.mem_cons.mp hp with rfl | hp2
              · exact ⟨rfl, hjlt⟩
              · exact hprops2 p hp2
            · intro j2 hmem2
              by_cases hj2 : j2 = j
              · subst hj2
                rw [List.filter_cons, if_pos (by simp)]
                rw [hfilout2 j2 hnomidj]
              · rw [List.filter_cons, if_neg (by simp [Ne.symm hj2])]
                rw [hcongr j2 hj2] at hmem2
                exact hfilin2 j2 hmem2
            · intro j2 hmem2
              by_cases hj2 : j2 = j
              · subst hj2
                exfalso
                apply hmem2
                rw [hsj]
                simp
              · rw [List.filter_cons, if_neg (by simp [Ne.symm hj2])]
                rw [hcongr j2 hj2] at hmem2
                exact hfilout2 j2 hmem2
            · intro j2 hmem2
              by_cases hj2 : j2 = j
              · subst hj2
                rw [hsj, hremout2 j2 hnomidj, hmidj]
              · rw [hcongr j2 hj2] at hmem2 ⊢
                exact hremin2 j2 hmem2
            · intro j2 hmem2
              by_cases hj2 : j2 = j
              · subst hj2
                exfalso
                apply hmem2
                rw [hsj]
                simp
              · rw [hcongr j2 hj2] at hmem2 ⊢
                exact hremout2 j2 hmem2
            · rw [hmid_len] at hms2
              simp only [List.length_cons]
              omega
            · rw [hmid_len] at hhl2
              simp only [List.length_cons]
              omega
            · exact hil2
      · -- the root does not tie: exit the loop
        have hstrict : ∀ e ∈ (j, w) :: rest, ltc cmp res e.2 := by
          intro e he
          have hlw : lec cmp res w := hle (j, w) (by simp)
          have hltw : ltc cmp res w := by
            unfold lec at hlw
            unfold ltc
            cases hc : cmp res w
            · rfl
            · exact absurd hc heq
            · exact absurd hc hlw
          exact hlc.lt_of_lt_of_le hltw (hroot e he)
        have hnone := not_mem_remaining_of_strict hlc hinv hstrict
        refine ⟨[], iters, (j, w) :: rest, ?_, hinv, hstrict, by simp,
          ?_, ?_, ?_, ?_, by omega, by omega, rfl⟩
        · simp only [tieLoopD]
          rw [if_neg heq, List.append_nil]
        · intro j2 hmem2
          exact absurd hmem2 (hnone j2)
        · intro j2 hmem2
          rfl
        · intro j2 hmem2
          exact absurd hmem2 (hnone j2)
        · intro j2 hmem2
          rfl

theorem detailedNext_spec (hlc : LawfulCmp cmp) {iters : List (List T)} {i : Nat}
    {v : T} {rest : List (Nat × T)}
    (hinv : Inv cmp ⟨iters, (i, v) :: rest⟩) :
    ∃ g iters2 heap2,
      DetailedMergeIterator.next cmp ⟨iters, (i, v) :: rest⟩ = (some g, ⟨iters2, heap2⟩) ∧
      Inv cmp ⟨iters2, heap2⟩ ∧
      (∀ e ∈ heap2, ltc cmp v e.2) ∧
      (∀ p ∈ g, p.2 = v ∧ p.1 < iters.length) ∧
      g.getLast? = some (i, v) ∧
      (g.map Prod.fst).Nodup ∧
      v ∈ remaining ⟨iters, (i, v) :: rest⟩ i ∧
      (∀ j, v ∈ remaining ⟨iters, (i, v) :: rest⟩ j →
        g.filter (fun p => p.1 == j) = [(j, v)]) ∧
      (∀ j, v ∉ remaining ⟨iters, (i, v) :: rest⟩ j →
        g.filter (fun p => p.1 == j) = []) ∧
      (∀ j, v ∈ remaining ⟨iters, (i, v) :: rest⟩ j →
        remaining ⟨iters, (i, v) :: rest⟩ j = v :: remaining ⟨iters2, heap2⟩ j) ∧
      (∀ j, v ∉ remaining ⟨iters, (i, v) :: rest⟩ j →
        remaining ⟨iters2, heap2⟩ j = remaining ⟨iters, (i, v) :: rest⟩ j) ∧
      (∀ j x, x ∈ remaining ⟨iters2, heap2⟩ j → ltc cmp v x) ∧
      (∀ j x, x ∈ remaining ⟨iters, (i, v) :: rest⟩ j → lec cmp v x) ∧
      heap2.length + sumLens iters2 < ((i, v) :: rest).length + sumLens iters ∧
      heap2.length ≤ ((i, v) :: rest).length ∧
      iters2.length = iters.length := by
  have hroot := root_min_engine hlc hinv
  have hilt : i < iters.length := hinv.idxLt (i, v) (by simp)
  have hsi : remaining ⟨iters, (i, v) :: rest⟩ i = v :: (iters[i]?.getD []) :=
    remaining_root
  have hvmem : v ∈ remaining ⟨iters, (i, v) :: rest⟩ i := by
    rw [hsi]
    simp
  have hlec := lec_remaining_of_root hlc hinv hroot
  cases hi : iters[i]? with
  | none =>
    rw [List.getElem?_eq_getElem hilt] at hi
    exact Option.noConfusion hi
  | some L =>
    cases L with
    | cons x tl =>
      obtain ⟨hmid_inv, hmid_mem, hmid_len, hmid_sum, hmid_ilen⟩ :=
        replace_inv hlc hinv hi
      have hchain0 := hinv.sorted i v (x :: tl) (by simp) hi
      have hltx : ltc cmp v x := (List.chain'_cons.mp hchain0).1
      have hmid_le : ∀ e ∈ siftDown cmp ((i, x) :: rest) 0, lec cmp v e.2 := by
        intro e he
        rcases (hmid_mem e).mp he with rfl | he2
        · exact lec_of_ltc hltx
        · exact hroot e (List.mem_cons_of_mem _ he2)
      obtain ⟨extra, iters2, heap2, hrec, hinv2, hstrict2, hprops2, hfilin2,
        hfilout2, hremin2, hremout2, hms2, hhl2, hil2⟩ :=
        tieLoopD_spec hlc (tieFuel (iters.set i tl) (siftDown cmp ((i, x) :: rest) 0))
          (iters.set i tl) (siftDown cmp ((i, x) :: rest) 0) v []
          (by unfold tieFuel; omega) hmid_inv hmid_le
      have hmidi : remaining ⟨iters.set i tl, siftDown cmp ((i, x) :: rest) 0⟩ i
          = x :: tl := by
        unfold remaining
        rw [(entryVal_eq_some hmid_inv.nodup).mpr ((hmid_mem (i, x)).mpr (Or.inl rfl))]
        rw [List.getElem?_set_self hilt]
        rfl
      have hall := ltc_chain_head hlc (x :: tl) v hchain0
      have hnomidi : v ∉
          remaining ⟨iters.set i tl, siftDown cmp ((i, x) :: rest) 0⟩ i := by
        rw [hmidi]
        intro hmem
        exact hlc.ne_of_lt (hall v hmem) rfl
      have hcongr : ∀ j2, j2 ≠ i →
          remaining ⟨iters, (i, v) :: rest⟩ j2 =
          remaining ⟨iters.set i tl, siftDown cmp ((i, x) :: rest) 0⟩ j2 := by
        intro j2 hne
        apply remaining_congr hinv.nodup hmid_inv.nodup
        · intro u
          rw [hmid_mem (j2, u)]
          constructor
          · intro hv
            rcases List.mem_cons.mp hv with heq2 | hv2
            · exact absurd (congrArg Prod.fst heq2) hne
            · exact Or.inr hv2
          · intro hv
            rcases hv with heq2 | hv2
            · exact absurd (congrArg Prod.fst heq2) hne
            · exact List.mem_cons_of_mem _ hv2
        · exact (List.getElem?_set_ne (fun habs => hne habs.symm)).symm
      have hsieq : remaining ⟨iters, (i, v) :: rest⟩ i = v :: x :: tl := by
        rw [hsi, hi]
        rfl
      have hgfil : ∀ j, ((extra ++ [(i, v)]).filter (fun p => p.1 == j)) =
          extra.filter (fun p => p.1 == j) ++ (if i = j then [(i, v)] else []) := by
        intro j
        rw [List.filter_append]
        congr 1
        by_cases hij : i = j
        · subst hij
          simp
        · simp [hij]
      refine ⟨extra ++ [(i, v)], iters2, heap2, ?_, hinv2, hstrict2, ?_,
        List.getLast?_concat _, ?_, hvmem, ?_, ?_, ?_, ?_,
        ltc_remaining_of_strict hlc hinv2 hstrict2, hlec, ?_, ?_, ?_⟩
      · simp only [DetailedMergeIterator.next, pullFrom, hi]
        rw [hrec]
        simp
      · intro p hp
        rcases List.mem_append.mp hp with hp2 | hp2
        · have := hprops2 p hp2
          rw [hmid_ilen] at this
          exact this
        · simp only [List.mem_singleton] at hp2
          subst hp2
          exact ⟨rfl, hilt⟩
      · apply nodup_fst_of_filter
        intro j
        rw [hgfil j]
        by_cases hij : i = j
        · subst hij
          rw [if_pos rfl, hfilout2 i hnomidi]
          simp
        · rw [if_neg hij, List.append_nil]
          by_cases hjm : v ∈ remaining ⟨iters.set i tl, siftDown cmp ((i, x) :: rest) 0⟩ j
          · rw [hfilin2 j hjm]
            simp
          · rw [hfilout2 j hjm]
            simp
      · intro j hjm
        rw [hgfil j]
        by_cases hij : i = j
        · subst hij
          rw [if_pos rfl, hfilout2 i hnomidi]
          rfl
        · rw [if_neg hij, List.append_nil]
          rw [hcongr j (fun habs => hij habs.symm)] at hjm
          exact hfilin2 j hjm
      · intro j hjm
        rw [hgfil j]
        by_cases hij : i = j
        · subst hij
          exact absurd hvmem hjm
        · rw [if_neg hij, List.append_nil]
          rw [hcongr j (fun habs => hij habs.symm)] at hjm
          exact hfilout2 j hjm
      · intro j hjm
        by_cases hij : i = j
        · subst hij
          rw [hsieq, hremout2 i hnomidi, hmidi]
        · rw [hcongr j (fun habs => hij habs.symm)] at hjm ⊢
          exact hremin2 j hjm
      · intro j hjm
        by_cases hij : i = j
        · subst hij
          exact absurd hvmem hjm
        · rw [hcongr j (fun habs => hij habs.symm)] at hjm ⊢
          exact hremout2 j hjm
      · rw [hmid_len] at hms2
        simp only [List.length_cons]
        omega
      · rw [hmid_len] at hhl2
        simp only [List.length_cons]
        omega
      · rw [hmid_ilen] at hil2
        exact hil2
    | nil =>
      obtain ⟨hmid_inv, hmid_mem, hmid_len⟩ := pop_inv hlc hinv hi
      have hmid_le : ∀ e ∈ popRoot cmp rest, lec cmp v e.2 := by
        intro e he
        exact hroot e (List.mem_cons_of_mem _ ((hmid_mem e).mp he))
      obtain ⟨extra, iters2, heap2, hrec, hinv2, hstrict2, hprops2, hfilin2,
        hfilout2, hremin2, hremout2, hms2, hhl2, hil2⟩ :=
        tieLoopD_spec hlc (tieFuel iters (popRoot cmp rest))
          iters (popRoot cmp rest) v []
          (by unfold tieFuel; omega) hmid_inv hmid_le
      have hirest : ∀ u, (i, u) ∉ rest := by
        intro u hu
        have := hinv.nodup
        simp only [List.map_cons, List.nodup_cons] at this
        exact this.1 (List.mem_map.mpr ⟨(i, u), hu, rfl⟩)
      have hmidi : remaining ⟨iters, popRoot cmp rest⟩ i = [] := by
        unfold remaining
        have hnone : entryVal (popRoot cmp rest) i = none := by
          rw [entryVal_eq_none]
          intro u hu
          exact hirest u ((hmid_mem (i, u)).mp hu)
        rw [hnone, hi]
        rfl
      have hnomidi : v ∉ remaining ⟨iters, popRoot cmp rest⟩ i := by
        rw [hmidi]
        simp
      have hcongr : ∀ j2, j2 ≠ i →
          remaining ⟨iters, (i, v) :: rest⟩ j2 =
          remaining ⟨iters, popRoot cmp rest⟩ j2 := by
        intro j2 hne
        apply remaining_congr hinv.nodup hmid_inv.nodup
        · intro u
          rw [hmid_mem (j2, u)]
          constructor
          · intro hv
            rcases List.mem_cons.mp hv with heq2 | hv2
            · exact absurd (congrArg Prod.fst heq2) hne
            · exact hv2
          · intro hv
            exact List.mem_cons_of_mem _ hv
        · rfl
      have hsieq : remaining ⟨iters, (i, v) :: rest⟩ i = [v] := by
        rw [hsi, hi]
        rfl
      have hgfil : ∀ j, ((extra ++ [(i, v)]).filter (fun p => p.1 == j)) =
          extra.filter (fun p => p.1 == j) ++ (if i = j then [(i, v)] else []) := by
        intro j
        rw [List.filter_append]
        congr 1
        by_cases hij : i = j
        · subst hij
          simp
        · simp [hij]
      refine ⟨extra ++ [(i, v)], iters2, heap2, ?_, hinv2, hstrict2, ?_,
        List.getLast?_concat _, ?_, hvmem, ?_, ?_, ?_, ?_,
        ltc_remaining_of_strict hlc hinv2 hstrict2, hlec, ?_, ?_, ?_⟩
      · simp only [DetailedMergeIterator.next, pullFrom, hi]
        rw [hrec]
        simp
      · intro p hp
        rcases List.mem_append.mp hp with hp2 | hp2
        · exact hprops2 p hp2
        · simp only [List.mem_singleton] at hp2
          subst hp2
          exact ⟨rfl, hilt⟩
      · apply nodup_fst_of_filter
        intro j
        rw [hgfil j]
        by_cases hij : i = j
        · subst hij
          rw [if_pos rfl, hfilout2 i hnomidi]
          simp
        · rw [if_neg hij, List.append_nil]
          by_cases hjm : v ∈ remaining ⟨iters, popRoot cmp rest⟩ j
          · rw [hfilin2 j hjm]
            simp
          · rw [hfilout2 j hjm]
            simp
      · intro j hjm
        rw [hgfil j]
        by_cases hij : i = j
        · subst hij
          rw [if_pos rfl, hfilout2 i hnomidi]
          rfl
        · rw [if_neg hij, List.append_nil]
          rw [hcongr j (fun habs => hij habs.symm)] at hjm
          exact hfilin2 j hjm
      · intro j hjm
        rw [hgfil j]
        by_cases hij : i = j
        · subst hij
          exact absurd hvmem hjm
        · rw [if_neg hij, List.append_nil]
          rw [hcongr j (fun habs => hij habs.symm)] at hjm
          exact hfilout2 j hjm
      · intro j hjm
        by_cases hij : i = j
        · subst hij
          rw [hsieq, hremout2 i hnomidi, hmidi]
        · rw [hcongr j (fun habs => hij habs.symm)] at hjm ⊢
          exact hremin2 j hjm
      · intro j hjm
        by_cases hij : i = j
        · subst hij
          exact absurd hvmem hjm
        · rw [hcongr j (fun habs => hij habs.symm)] at hjm ⊢
          exact hremout2 j hjm
      · rw [hmid_len] at hms2
        simp only [List.length_cons]
        omega
      · rw [hmid_len] at hhl2
        simp only [List.length_cons]
        omega
      · exact hil2

theorem ltc_chain_pairwise (hlc : LawfulCmp cmp) :
    ∀ (L : List T), List.Chain' (ltc cmp) L → List.Pairwise (ltc cmp) L := by
  intro L
  induction L with
  | nil =>
    intro h
    exact List.Pairwise.nil
  | cons a L ih =>
    intro h
    rw [List.pairwise_cons]
    exact ⟨fun y hy => ltc_chain_head hlc L a h y hy, ih h.tail⟩

/-- The value of a detailed group: the last entry is the originally selected
source's (index, value) pair, so this is the emitted value of the step. -/
def groupVal {T : Type} (g : List (Nat × T)) : Option T :=
  (g.getLast?).map Prod.snd

theorem detailedRunF_spec (hlc : LawfulCmp cmp) :
    ∀ (fuel : Nat) (iters : List (List T)) (heap : List (Nat × T)),
      heap.length + sumLens iters < fuel →
      Inv cmp ⟨iters, heap⟩ →
      ∃ gs iters2,
        detailedRunF cmp fuel ⟨iters, heap⟩ = (gs, ⟨iters2, []⟩) ∧
        (∀ rem ∈ iters2, rem = []) ∧
        iters2.length = iters.length ∧
        List.Chain' (ltc cmp) (gs.filterMap groupVal) ∧
        (∀ x, x ∈ gs.filterMap groupVal ↔ ∃ j, x ∈ remaining ⟨iters, heap⟩ j) ∧
        (∀ g ∈ gs, ∃ q, g.getLast? = some q ∧
          (∀ p ∈ g, p.2 = q.2 ∧ p.1 < iters.length) ∧ (g.map Prod.fst).Nodup) ∧
        (∀ j, ((gs.flatten.filter (fun p => p.1 == j)).map Prod.snd) =
          remaining ⟨iters, heap⟩ j) := by
  intro fuel
  induction fuel with
  | zero =>
    intro iters heap hf hinv
    exact absurd hf (by omega)
  | succ fuel ih =>
    intro iters heap hf hinv
    cases heap with
    | nil =>
      have hrem : ∀ j2, remaining ⟨iters, ([] : List (Nat × T))⟩ j2 = [] := by
        intro j2
        unfold remaining entryVal
        simp only [List.find?_nil, Option.map_none']
        cases hit : iters[j2]? with
        | none => rfl
        | some rem =>
          have := hinv.absent j2 rem hit (by intro v hv; simp at hv)
          subst this
          rfl
      refine ⟨[], iters, ?_, ?_, rfl, by simp, ?_, by simp, ?_⟩
      · rfl
      · intro rem hmem
        obtain ⟨n, hn⟩ := List.mem_iff_getElem?.mp hmem
        exact hinv.absent n rem hn (by intro v hv; simp at hv)
      · intro x
        simp only [List.filterMap_nil, List.not_mem_nil, false_iff, not_exists]
        intro j hj
        rw [hrem j] at hj
        simp at hj
      · intro j
        rw [hrem j]
        simp
    | cons hd rest =>
      obtain ⟨i, v⟩ := hd
      obtain ⟨g, iters2m, heap2m, hnext, hinv2, hstrict2, hprops, hlast, hnd,
        hvmem, hfilin, hfilout, hremin, hremout, hltc2, hlec1, hms, hhl, hil⟩ :=
        detailedNext_spec hlc hinv
      have hf2 : heap2m.length + sumLens iters2m < fuel := by
        simp only [List.length_cons] at hf hms
        omega
      obtain ⟨gs2, iters3, hrun2, hdrain, hlen3, hchain2, hmemv2, hgs2, hcons2⟩ :=
        ih iters2m heap2m hf2 hinv2
      have hrun : detailedRunF cmp (fuel+1) ⟨iters, (i, v) :: rest⟩ =
          (g :: gs2, ⟨iters3, []⟩) := by
        simp only [detailedRunF, hnext, hrun2]
      have hgv : groupVal g = some v := by
        unfold groupVal
        rw [hlast]
        rfl
      have hvals : (g :: gs2).filterMap groupVal = v :: gs2.filterMap groupVal := by
        rw [List.filterMap_cons, hgv]
      refine ⟨g :: gs2, iters3, hrun, hdrain, by rw [hlen3, hil], ?_, ?_, ?_, ?_⟩
      · rw [hvals]
        rw [List.chain'_cons']
        constructor
        · intro y hy
          have hym : y ∈ gs2.filterMap groupVal := by
            cases hh : (gs2.filterMap groupVal) with
            | nil =>
              rw [hh] at hy
              simp at hy
            | cons a t =>
              rw [hh] at hy
              simp only [List.head?_cons, Option.mem_def, Option.some_inj] at hy
              subst hy
              simp
          obtain ⟨j, hj⟩ := (hmemv2 y).mp hym
          exact hltc2 j y hj
        · exact hchain2
      · intro x
        rw [hvals]
        rw [List.mem_cons]
        constructor
        · intro hx
          rcases hx with rfl | hx2
          · exact ⟨i, hvmem⟩
          · obtain ⟨j, hj⟩ := (hmemv2 x).mp hx2
            by_cases hvj : v ∈ remaining ⟨iters, (i, v) :: rest⟩ j
            · refine ⟨j, ?_⟩
              rw [hremin j hvj]
              exact List.mem_cons_of_mem _ hj
            · refine ⟨j, ?_⟩
              rw [← hremout j hvj]
              exact hj
        · intro hx
          obtain ⟨j, hj⟩ := hx
          by_cases hxv : x = v
          · exact Or.inl hxv
          · right
            rw [hmemv2 x]
            by_cases hvj : v ∈ remaining ⟨iters, (i, v) :: rest⟩ j
            · refine ⟨j, ?_⟩
              rw [hremin j hvj] at hj
              rcases List.mem_cons.mp hj with rfl | hj2
              · exact absurd rfl hxv
              · exact hj2
            · refine ⟨j, ?_⟩
              rw [hremout j hvj]
              exact hj
      · intro g2 hg2
        rcases List.mem_cons.mp hg2 with rfl | hg2m
        · refine ⟨(i, v), hlast, ?_, hnd⟩
          intro p hp
          exact hprops p hp
        · obtain ⟨q, hq1, hq2, hq3⟩ := hgs2 g2 hg2m
          refine ⟨q, hq1, ?_, hq3⟩
          intro p hp
          have := hq2 p hp
          rw [hil] at this
          exact this
      · intro j
        rw [List.flatten_cons, List.filter_append, List.map_append, hcons2 j]
        by_cases hvj : v ∈ remaining ⟨iters, (i, v) :: rest⟩ j
        · rw [hfilin j hvj, hremin j hvj]
          rfl
        · rw [hfilout j hvj, hremout j hvj]
          rfl

theorem tieLoop_eq (cmp : Cmp T) :
    ∀ (fuel : Nat) (res : T) (iters : List (List T)) (heap : List (Nat × T))
      (details : List (Nat × T)),
      tieLoop cmp fuel res iters heap =
        ((tieLoopD cmp fuel res iters heap details).1,
         (tieLoopD cmp fuel res iters heap details).2.1) := by
  intro fuel
  induction fuel with
  | zero =>
    intro res iters heap details
    rfl
  | succ fuel ih =>
    intro res iters heap details
    cases heap with
    | nil => rfl
    | cons hd rest =>
      obtain ⟨j, w⟩ := hd
      simp only [tieLoop, tieLoopD]
      by_cases heq : cmp res w = Ordering.eq
      · rw [if_pos heq, if_pos heq]
        cases hp : (pullFrom iters j).1 with
        | some x => exact ih res _ _ _
        | none => exact ih res _ _ _
      · rw [if_neg heq, if_neg heq]

theorem next_eq (cmp : Cmp T) (s : MergeIterator T) :
    (DetailedMergeIterator.next cmp s).2 = (MergeIterator.next cmp s).2 ∧
    (((DetailedMergeIterator.next cmp s).1 = none ∧
      (MergeIterator.next cmp s).1 = none) ∨
     (∃ g v, (DetailedMergeIterator.next cmp s).1 = some g ∧
       (MergeIterator.next cmp s).1 = some v ∧ groupVal g = some v)) := by
  cases s with
  | mk iters heap =>
    cases heap with
    | nil => exact ⟨rfl, Or.inl ⟨rfl, rfl⟩⟩
    | cons hd rest =>
      obtain ⟨i, v⟩ := hd
      simp only [MergeIterator.next, DetailedMergeIterator.next]
      cases hp : (pullFrom iters i).1 with
      | some x =>
        constructor
        · simp only
          rw [tieLoop_eq cmp _ v _ _ []]
        · right
          refine ⟨_, v, rfl, rfl, ?_⟩
          unfold groupVal
          rw [List.getLast?_concat]
          rfl
      | none =>
        constructor
        · simp only
          rw [tieLoop_eq cmp _ v _ _ []]
        · right
          refine ⟨_, v, rfl, rfl, ?_⟩
          unfold groupVal
          rw [List.getLast?_concat]
          rfl

theorem runF_corr (cmp : Cmp T) :
    ∀ (fuel : Nat) (s : MergeIterator T),
      (mergeRunF cmp fuel s).2 = (detailedRunF cmp fuel s).2 ∧
      (mergeRunF cmp fuel s).1 = (detailedRunF cmp fuel s).1.filterMap groupVal ∧
      (mergeRunF cmp fuel s).1.length = (detailedRunF cmp fuel s).1.length ∧
      (∀ g ∈ (detailedRunF cmp fuel s).1, g ≠ []) := by
  intro fuel
  induction fuel with
  | zero =>
    intro s
    refine ⟨rfl, rfl, rfl, ?_⟩
    intro g hg
    simp [detailedRunF] at hg
  | succ fuel ih =>
    intro s
    obtain ⟨hst, hout⟩ := next_eq cmp s
    cases hdn : DetailedMergeIterator.next cmp s with
    | mk og sd =>
      cases hmn : MergeIterator.next cmp s with
      | mk ov sm =>
        rw [hdn, hmn] at hst hout
        simp only at hst hout
        subst hst
        rcases hout with ⟨hog, hov⟩ | ⟨g, v, hog, hov, hgv⟩
        · subst hog
          subst hov
          simp only [mergeRunF, detailedRunF, hdn, hmn]
          simp
        · subst hog
          subst hov
          obtain ⟨ihst, ihout, ihlen, ihne⟩ := ih sd
          simp only [mergeRunF, detailedRunF, hdn, hmn]
          refine ⟨ihst, ?_, ?_, ?_⟩
          · rw [List.filterMap_cons, hgv, ihout]
          · simp only [List.length_cons]
            omega
          · intro g2 hg2
            rcases List.mem_cons.mp hg2 with rfl | hg2m
            · intro habs
              subst habs
              unfold groupVal at hgv
              simp at hgv
            · exact ihne g2 hg2m

theorem states_eq (cmp : Cmp T) (iters : List (List T)) :
    merge_iters_by cmp iters = merge_iters_detailed_by cmp iters := rfl

theorem mergeOutput_corr (cmp : Cmp T) (iters : List (List T)) :
    mergeOutput cmp iters = (detailedOutput cmp iters).filterMap groupVal ∧
    (mergeOutput cmp iters).length = (detailedOutput cmp iters).length ∧
    (∀ g ∈ detailedOutput cmp iters, g ≠ []) ∧
    mergeFinal cmp iters = detailedFinal cmp iters := by
  obtain ⟨h1, h2, h3, h4⟩ :=
    runF_corr cmp (stateMeasure (merge_iters_by cmp iters) + 1) (merge_iters_by cmp iters)
  exact ⟨h2, h3, h4, h1⟩

end EngineLemmas

instance {T : Type} (cmp : Cmp T) (a b : T) : Decidable (ltc cmp a b) := by
  unfold ltc
  infer_instance

instance {T : Type} (cmp : Cmp T) (a b : T) : Decidable (lec cmp a b) := by
  unfold lec
  infer_instance

/-- Sorted insertion dropping values that compare Equal: the specification
side of "sorted, deduplicated union". -/
def insertCmp {T : Type} (cmp : Cmp T) (x : T) : List T → List T
  | [] => [x]
  | y :: ys =>
    match cmp x y with
    | Ordering.lt => x :: y :: ys
    | Ordering.eq => y :: ys
    | Ordering.gt => y :: insertCmp cmp x ys

/-- The sorted, deduplicated union of all values occurring in the sources,
defined independently of the engines by insertion sort with deduplication. -/
def sortedDedupUnion {T : Type} (cmp : Cmp T) (srcs : List (List T)) : List T :=
  srcs.flatten.foldr (insertCmp cmp) []

section SpecSide

variable {T : Type} {cmp : Cmp T}

theorem mem_insertCmp (hlc : LawfulCmp cmp) (x : T) :
    ∀ (l : List T) (z : T), z ∈ insertCmp cmp x l ↔ z = x ∨ z ∈ l := by
  intro l
  induction l with
  | nil =>
    intro z
    simp [insertCmp]
  | cons y ys ih =>
    intro z
    unfold insertCmp
    cases hc : cmp x y with
    | lt => simp
    | eq =>
      have hxy : x = y := hlc.eq_iff x y hc
      subst hxy
      simp only [List.mem_cons]
      constructor
      · intro h
        exact Or.inr h
      · intro h
        rcases h with rfl | h
        · exact Or.inl rfl
        · exact h
    | gt =>
      simp only [List.mem_cons, ih z]
      constructor
      · intro h
        rcases h with rfl | h | h
        · exact Or.inr (Or.inl rfl)
        · exact Or.inl h
        · exact Or.inr (Or.inr h)
      · intro h
        rcases h with rfl | rfl | h
        · exact Or.inr (Or.inl rfl)
        · exact Or.inl rfl
        · exact Or.inr (Or.inr h)

theorem chain_insertCmp (hlc : LawfulCmp cmp) (x : T) :
    ∀ (l : List T), List.Chain' (ltc cmp) l →
      List.Chain' (ltc cmp) (insertCmp cmp x l) := by
  intro l
  induction l with
  | nil =>
    intro h
    simp [insertCmp]
  | cons y ys ih =>
    intro h
    unfold insertCmp
    cases hc : cmp x y with
    | lt =>
      rw [List.chain'_cons]
      exact ⟨hc, h⟩
    | eq => exact h
    | gt =>
      rw [List.chain'_cons']
      refine ⟨?_, ih h.tail⟩
      intro z hz
      have hzm : z ∈ insertCmp cmp x ys := by
        cases hh : insertCmp cmp x ys with
        | nil =>
          rw [hh] at hz
          simp at hz
        | cons a t =>
          rw [hh] at hz
          simp only [List.head?_cons, Option.mem_def, Option.some_inj] at hz
          subst hz
          simp
      rcases (mem_insertCmp hlc x ys z).mp hzm with rfl | hzys
      · exact (hlc.lt_iff y z).mpr hc
      · exact ltc_chain_head hlc ys y h z hzys

theorem mem_sortedDedupUnion (hlc : LawfulCmp cmp) (srcs : List (List T)) (z : T) :
    z ∈ sortedDedupUnion cmp srcs ↔ z ∈ srcs.flatten := by
  unfold sortedDedupUnion
  generalize srcs.flatten = L
  induction L with
  | nil => simp
  | cons a t ih =>
    simp only [List.foldr_cons]
    rw [mem_insertCmp hlc a _ z, ih]
    simp

theorem chain_sortedDedupUnion (hlc : LawfulCmp cmp) (srcs : List (List T)) :
    List.Chain' (ltc cmp) (sortedDedupUnion cmp srcs) := by
  unfold sortedDedupUnion
  generalize srcs.flatten = L
  induction L with
  | nil => simp
  | cons a t ih =>
    simp only [List.foldr_cons]
    exact chain_insertCmp hlc a _ ih

theorem sorted_unique (hlc : LawfulCmp cmp) :
    ∀ (l1 l2 : List T), List.Chain' (ltc cmp) l1 → List.Chain' (ltc cmp) l2 →
      (∀ x, x ∈ l1 ↔ x ∈ l2) → l1 = l2 := by
  intro l1
  induction l1 with
  | nil =>
    intro l2 h1 h2 hm
    cases l2 with
    | nil => rfl
    | cons b t2 =>
      exact absurd ((hm b).mpr (by simp)) (by simp)
  | cons a t1 ih =>
    intro l2 h1 h2 hm
    cases l2 with
    | nil => exact absurd ((hm a).mp (by simp)) (by simp)
    | cons b t2 =>
      have hab : a = b := by
        rcases List.mem_cons.mp ((hm a).mp (by simp)) with h | h
        · exact h
        · have hba : ltc cmp b a := ltc_chain_head hlc t2 b h2 a h
          rcases List.mem_cons.mp ((hm b).mpr (by simp)) with h2e | h2e
          · exact h2e.symm
          · have hab2 : ltc cmp a b := ltc_chain_head hlc t1 a h1 b h2e
            exact absurd (hlc.lt_trans hab2 hba) (fun hh => hlc.ne_of_lt hh rfl)
      subst hab
      have htl : t1 = t2 := by
        apply ih t2 h1.tail h2.tail
        intro x
        constructor
        · intro hx
          have hax : ltc cmp a x := ltc_chain_head hlc t1 a h1 x hx
          rcases List.mem_cons.mp ((hm x).mp (List.mem_cons_of_mem _ hx)) with rfl | h
          · exact absurd hax (fun hh => hlc.ne_of_lt hh rfl)
          · exact h
        · intro hx
          have hax : ltc cmp a x := ltc_chain_head hlc t2 a h2 x hx
          rcases List.mem_cons.mp ((hm x).mpr (List.mem_cons_of_mem _ hx)) with rfl | h
          · exact absurd hax (fun hh => hlc.ne_of_lt hh rfl)
          · exact h
      rw [htl]

end SpecSide

section Master

variable {T : Type} {cmp : Cmp T}

theorem exists_remaining_init_iff (cmp : Cmp T) (srcs : List (List T)) (x : T) :
    (∃ j, x ∈ remaining (merge_iters_by cmp srcs) j) ↔ x ∈ srcs.flatten := by
  constructor
  · rintro ⟨j, hj⟩
    rw [remaining_init] at hj
    cases hsrc : srcs[j]? with
    | none =>
      rw [hsrc] at hj
      simp at hj
    | some src =>
      rw [hsrc] at hj
      simp only [Option.getD_some] at hj
      exact List.mem_flatten.mpr ⟨src, List.mem_iff_getElem?.mpr ⟨j, hsrc⟩, hj⟩
  · intro hx
    obtain ⟨l, hl, hxl⟩ := List.mem_flatten.mp hx
    obtain ⟨j, hj⟩ := List.mem_iff_getElem?.mp hl
    refine ⟨j, ?_⟩
    rw [remaining_init, hj]
    exact hxl

theorem output_master (hlc : LawfulCmp cmp) (srcs : List (List T))
    (hs : ∀ src ∈ srcs, List.Chain' (ltc cmp) src) :
    (detailedFinal cmp srcs).heap = [] ∧
    (∀ rem ∈ (detailedFinal cmp srcs).iters, rem = []) ∧
    (detailedFinal cmp srcs).iters.length = srcs.length ∧
    List.Chain' (ltc cmp) ((detailedOutput cmp srcs).filterMap groupVal) ∧
    (∀ x, x ∈ (detailedOutput cmp srcs).filterMap groupVal ↔ x ∈ srcs.flatten) ∧
    (∀ g ∈ detailedOutput cmp srcs, ∃ q, g.getLast? = some q ∧
      (∀ p ∈ g, p.2 = q.2 ∧ p.1 < srcs.length) ∧ (g.map Prod.fst).Nodup) ∧
    (∀ j, (((detailedOutput cmp srcs).flatten.filter (fun p => p.1 == j)).map Prod.snd)
        = (srcs[j]?).getD []) := by
  have hinv : Inv cmp (merge_iters_detailed_by cmp srcs) := inv_init hlc srcs hs
  obtain ⟨gs, iters2, hrun, hdrain, hlen, hchain, hmemv, hgs, hcons⟩ :=
    detailedRunF_spec hlc (stateMeasure (merge_iters_detailed_by cmp srcs) + 1)
      (merge_iters_detailed_by cmp srcs).iters (merge_iters_detailed_by cmp srcs).heap
      (by unfold stateMeasure; omega) hinv
  have hout : detailedOutput cmp srcs = gs := by
    unfold detailedOutput
    rw [hrun]
  have hfin : detailedFinal cmp srcs = ⟨iters2, []⟩ := by
    unfold detailedFinal
    rw [hrun]
  have hslen : (merge_iters_detailed_by cmp srcs).iters.length = srcs.length := by
    simp [merge_iters_detailed_by]
  rw [hout, hfin]
  refine ⟨rfl, hdrain, by rw [hlen, hslen], hchain, ?_, ?_, ?_⟩
  · intro x
    rw [hmemv x]
    exact exists_remaining_init_iff cmp srcs x
  · intro g hg
    obtain ⟨q, hq1, hq2, hq3⟩ := hgs g hg
    refine ⟨q, hq1, ?_, hq3⟩
    intro p hp
    have := hq2 p hp
    rw [hslen] at this
    exact this
  · intro j
    rw [hcons j]
    exact remaining_init cmp srcs j

end Master

section Plumbing

variable {T : Type} {cmp : Cmp T}

theorem filterMap_all_some_inj {α β : Type} (f : α → Option β) :
    ∀ (l : List α), (∀ a ∈ l, (f a).isSome) → (l.filterMap f).Nodup →
      ∀ g1 ∈ l, ∀ g2 ∈ l, f g1 = f g2 → g1 = g2 := by
  intro l
  induction l with
  | nil =>
    intro _ _ g1 hg1
    simp at hg1
  | cons a t ih =>
    intro hall hnd g1 hg1 g2 hg2 hf
    obtain ⟨b, hb⟩ : ∃ b, f a = some b := by
      have hsome := hall a (by simp)
      cases hfa : f a with
      | none =>
        rw [hfa] at hsome
        simp at hsome
      | some b => exact ⟨b, rfl⟩
    simp only [List.filterMap_cons, hb, List.nodup_cons] at hnd
    rcases List.mem_cons.mp hg1 with rfl | hg1t
    · rcases List.mem_cons.mp hg2 with rfl | hg2t
      · rfl
      · exfalso
        apply hnd.1
        refine List.mem_filterMap.mpr ⟨g2, hg2t, ?_⟩
        rw [← hf]
        exact hb
    · rcases List.mem_cons.mp hg2 with rfl | hg2t
      · exfalso
        apply hnd.1
        refine List.mem_filterMap.mpr ⟨g1, hg1t, ?_⟩
        rw [hf]
        exact hb
      · exact ih (fun x hx => hall x (List.mem_cons_of_mem _ hx)) hnd.2 g1 hg1t g2 hg2t hf

theorem detailed_next_preserves (hlc : LawfulCmp cmp) (s : MergeIterator T)
    (hinv : Inv cmp s) :
    Inv cmp (DetailedMergeIterator.next cmp s).2 ∧
    (DetailedMergeIterator.next cmp s).2.heap.length ≤ s.heap.length ∧
    ((DetailedMergeIterator.next cmp s).1 = none ↔ s.heap = []) := by
  cases s with
  | mk iters heap =>
    cases heap with
    | nil =>
      refine ⟨hinv, Nat.le_refl _, ?_, ?_⟩
      · intro _
        rfl
      · intro _
        rfl
    | cons hd rest =>
      obtain ⟨i, v⟩ := hd
      obtain ⟨g, iters2, heap2, hnext, hinv2, _, _, _, _, _, _, _, _, _, _, _,
        hms, hhl, _⟩ := detailedNext_spec hlc hinv
      rw [hnext]
      refine ⟨hinv2, by simpa using hhl, ?_, ?_⟩
      · intro habs
        exact Option.noConfusion habs
      · intro habs
        exact List.noConfusion habs

theorem merge_next_preserves (hlc : LawfulCmp cmp) (s : MergeIterator T)
    (hinv : Inv cmp s) :
    Inv cmp (MergeIterator.next cmp s).2 ∧
    (MergeIterator.next cmp s).2.heap.length ≤ s.heap.length ∧
    ((MergeIterator.next cmp s).1 = none ↔ s.heap = []) := by
  obtain ⟨hst, hout⟩ := next_eq cmp s
  obtain ⟨h1, h2, h3⟩ := detailed_next_preserves hlc s hinv
  rw [← hst]
  refine ⟨h1, h2, ?_⟩
  rw [← h3]
  rcases hout with ⟨ha, hb⟩ | ⟨g, v, ha, hb, _⟩
  · rw [ha, hb]
    exact ⟨fun _ => rfl, fun _ => rfl⟩
  · rw [ha, hb]
    constructor
    · intro habs
      exact Option.noConfusion habs
    · intro habs
      exact Option.noConfusion habs

/-- Every heap entry indexes a live source slot. -/
def IdxOk {T : Type} (s : MergeIterator T) : Prop :=
  ∀ e ∈ s.heap, e.1 < s.iters.length

theorem tieLoopD_idx (cmp : Cmp T) :
    ∀ (fuel : Nat) (res : T) (iters : List (List T)) (heap : List (Nat × T))
      (details : List (Nat × T)),
      (∀ e ∈ heap, e.1 < iters.length) →
      (∀ e ∈ (tieLoopD cmp fuel res iters heap details).2.1,
        e.1 < (tieLoopD cmp fuel res iters heap details).1.length) ∧
      (tieLoopD cmp fuel res iters heap details).1.length = iters.length := by
  intro fuel
  induction fuel with
  | zero =>
    intro res iters heap details h
    exact ⟨h, rfl⟩
  | succ fuel ih =>
    intro res iters heap details h
    cases heap with
    | nil => exact ⟨h, rfl⟩
    | cons hd rest =>
      obtain ⟨j, w⟩ := hd
      simp only [tieLoopD]
      by_cases heq : cmp res w = Ordering.eq
      · rw [if_pos heq]
        cases hp : (pullFrom iters j).1 with
        | some x =>
          have hlen := pullFrom_length iters j
          have hpre : ∀ e ∈ siftDown cmp ((j, x) :: rest) 0,
              e.1 < (pullFrom iters j).2.length := by
            intro e he
            rw [hlen]
            rcases List.mem_cons.mp ((@siftDown_perm T cmp _ 0).mem_iff.mp he) with rfl | he2
            · exact h (j, w) (by simp)
            · exact h e (List.mem_cons_of_mem _ he2)
          have hrec := ih res (pullFrom iters j).2 (siftDown cmp ((j, x) :: rest) 0)
            (details ++ [(j, w)]) hpre
          exact ⟨hrec.1, hrec.2.trans hlen⟩
        | none =>
          have hlen := pullFrom_length iters j
          have hpre : ∀ e ∈ popRoot cmp rest, e.1 < (pullFrom iters j).2.length := by
            intro e he
            rw [hlen]
            exact h e (List.mem_cons_of_mem _ ((@popRoot_perm T cmp rest).mem_iff.mp he))
          have hrec := ih res (pullFrom iters j).2 (popRoot cmp rest)
            (details ++ [(j, w)]) hpre
          exact ⟨hrec.1, hrec.2.trans hlen⟩
      · rw [if_neg heq]
        exact ⟨h, rfl⟩

theorem detailed_next_idx (cmp : Cmp T) (s : MergeIterator T) (h : IdxOk s) :
    IdxOk (DetailedMergeIterator.next cmp s).2 := by
  cases s with
  | mk iters heap =>
    cases heap with
    | nil => exact h
    | cons hd rest =>
      obtain ⟨i, v⟩ := hd
      simp only [DetailedMergeIterator.next]
      cases hp : (pullFrom iters i).1 with
      | some x =>
        intro e he
        simp only at he ⊢
        have hpre : ∀ e2 ∈ siftDown cmp ((i, x) :: rest) 0,
            e2.1 < (pullFrom iters i).2.length := by
          intro e2 he2
          rw [pullFrom_length iters i]
          rcases List.mem_cons.mp ((@siftDown_perm T cmp _ 0).mem_iff.mp he2) with rfl | he3
          · exact h (i, v) (by simp)
          · exact h e2 (List.mem_cons_of_mem _ he3)
        exact (tieLoopD_idx cmp _ v _ _ [] hpre).1 e he
      | none =>
        intro e he
        simp only at he ⊢
        have hpre : ∀ e2 ∈ popRoot cmp rest, e2.1 < (pullFrom iters i).2.length := by
          intro e2 he2
          rw [pullFrom_length iters i]
          exact h e2 (List.mem_cons_of_mem _ ((@popRoot_perm T cmp rest).mem_iff.mp he2))
        exact (tieLoopD_idx cmp _ v _ _ [] hpre).1 e he

theorem merge_next_idx (cmp : Cmp T) (s : MergeIterator T) (h : IdxOk s) :
    IdxOk (MergeIterator.next cmp s).2 := by
  rw [← (next_eq cmp s).1]
  exact detailed_next_idx cmp s h

theorem init_idx (cmp : Cmp T) (srcs : List (List T)) :
    IdxOk (merge_iters_by cmp srcs) := by
  intro e he
  rw [mem_init_heap_iff] at he
  have := (initVec_fst_bounds srcs 0 e he).2
  simp only [merge_iters_by, List.length_map]
  omega

theorem mergeStepIter_idx (cmp : Cmp T) (s : MergeIterator T) (h : IdxOk s) :
    ∀ k, IdxOk (mergeStepIter cmp s k).2 := by
  intro k
  induction k with
  | zero => exact merge_next_idx cmp s h
  | succ k ih => exact merge_next_idx cmp _ ih

theorem detailedStepIter_idx (cmp : Cmp T) (s : MergeIterator T) (h : IdxOk s) :
    ∀ k, IdxOk (detailedStepIter cmp s k).2 := by
  intro k
  induction k with
  | zero => exact detailed_next_idx cmp s h
  | succ k ih => exact detailed_next_idx cmp _ ih

theorem merge_next_done (cmp : Cmp T) (s : MergeIterator T)
    (h : (MergeIterator.next cmp s).1 = none) :
    MergeIterator.next cmp s = (none, s) := by
  cases s with
  | mk iters heap =>
    cases heap with
    | nil => rfl
    | cons hd rest =>
      obtain ⟨i, v⟩ := hd
      exfalso
      simp only [MergeIterator.next] at h
      exact Option.noConfusion h

theorem detailed_next_done (cmp : Cmp T) (s : MergeIterator T)
    (h : (DetailedMergeIterator.next cmp s).1 = none) :
    DetailedMergeIterator.next cmp s = (none, s) := by
  cases s with
  | mk iters heap =>
    cases heap with
    | nil => rfl
    | cons hd rest =>
      obtain ⟨i, v⟩ := hd
      exfalso
      simp only [DetailedMergeIterator.next] at h
      exact Option.noConfusion h

end Plumbing

section SharedResults

variable {T : Type} {cmp : Cmp T}

theorem mergeOutput_eq_union (hlc : LawfulCmp cmp) (srcs : List (List T))
    (hs : ∀ src ∈ srcs, List.Chain' (ltc cmp) src) :
    mergeOutput cmp srcs = sortedDedupUnion cmp srcs := by
  obtain ⟨hcorr, _, _, _⟩ := mergeOutput_corr cmp srcs
  obtain ⟨_, _, _, hchain, hmem, _, _⟩ := output_master hlc srcs hs
  rw [hcorr]
  apply sorted_unique hlc _ _ hchain (chain_sortedDedupUnion hlc srcs)
  intro x
  rw [hmem x, mem_sortedDedupUnion hlc srcs x]

theorem scenario_sorted_1 :
    ∀ src ∈ [[1,2,3,4,5],[3,4,5,6,7],[2,3,4]], List.Chain' (ltc natCmp) src := by
  intro src hsrc
  fin_cases hsrc <;> simp [List.chain'_cons, ltc, natCmp]

theorem scenario_sorted_3 :
    ∀ src ∈ [[1,2],[2,3]], List.Chain' (ltc natCmp) src := by
  intro src hsrc
  fin_cases hsrc <;> simp [List.chain'_cons, ltc, natCmp]

end SharedResults

section Claims

variable {T : Type}

/-- C1: for every finite collection of source sequences, each sorted and
duplicate-free under the supplied lawful comparator, the sequence produced
by the Merge Engine (merge_iters / merge_iters_by, fully collected) equals
the sorted, deduplicated union of all values occurring in the sources. -/
theorem claim1_merge_union_correct (cmp : Cmp T) (srcs : List (List T))
    (hlc : LawfulCmp cmp) (hs : ∀ src ∈ srcs, List.Chain' (ltc cmp) src) :
    mergeOutput cmp srcs = sortedDedupUnion cmp srcs :=
  mergeOutput_eq_union hlc srcs hs

/-- Witness for C1: literal scenario 1, sources [1,2,3,4,5], [3,4,5,6,7],
[2,3,4] under the natural ascending order produce [1,2,3,4,5,6,7]. -/
theorem claim1_witness :
    LawfulCmp natCmp ∧
    (∀ src ∈ [[1,2,3,4,5],[3,4,5,6,7],[2,3,4]], List.Chain' (ltc natCmp) src) ∧
    mergeOutput natCmp [[1,2,3,4,5],[3,4,5,6,7],[2,3,4]] =
      sortedDedupUnion natCmp [[1,2,3,4,5],[3,4,5,6,7],[2,3,4]] ∧
    mergeOutput natCmp [[1,2,3,4,5],[3,4,5,6,7],[2,3,4]] = [1,2,3,4,5,6,7] := by
  have h := claim1_merge_union_correct natCmp [[1,2,3,4,5],[3,4,5,6,7],[2,3,4]]
    lawful_natCmp scenario_sorted_1
  exact ⟨lawful_natCmp, scenario_sorted_1, h, h.trans (by decide)⟩

/-- C2: concatenating the groups emitted by the Detailed Merge Engine,
flattening to (index, value) pairs and keeping the pairs of source index j
reproduces source j exactly, in original order. -/
theorem claim2_detailed_conservation (cmp : Cmp T) (srcs : List (List T))
    (hlc : LawfulCmp cmp) (hs : ∀ src ∈ srcs, List.Chain' (ltc cmp) src) :
    ∀ j src, srcs[j]? = some src →
      (((detailedOutput cmp srcs).flatten.filter (fun p => p.1 == j)).map Prod.snd)
        = src := by
  obtain ⟨_, _, _, _, _, _, hcons⟩ := output_master hlc srcs hs
  intro j src hj
  rw [hcons j, hj]
  rfl

/-- Witness for C2 on sources [1,2], [2,3] at source index 0. -/
theorem claim2_witness :
    (∀ src ∈ [[1,2],[2,3]], List.Chain' (ltc natCmp) src) ∧
    (((detailedOutput natCmp [[1,2],[2,3]]).flatten.filter
      (fun p => p.1 == 0)).map Prod.snd) = [1,2] :=
  ⟨scenario_sorted_3,
    claim2_detailed_conservation natCmp [[1,2],[2,3]] lawful_natCmp scenario_sorted_3
      0 [1,2] rfl⟩

/-- C4: in every emitted group the value recorded for each tied source is
the value that tied, equal to the emitted value held by the last entry,
which belongs to the originally selected source. -/
theorem claim4_tie_values (cmp : Cmp T) (srcs : List (List T))
    (hlc : LawfulCmp cmp) (hs : ∀ src ∈ srcs, List.Chain' (ltc cmp) src) :
    ∀ g ∈ detailedOutput cmp srcs,
      ∃ q, g.getLast? = some q ∧ ∀ p ∈ g, p.2 = q.2 := by
  obtain ⟨_, _, _, _, _, hgs, _⟩ := output_master hlc srcs hs
  intro g hg
  obtain ⟨q, h1, h2, _⟩ := hgs g hg
  exact ⟨q, h1, fun p hp => (h2 p hp).1⟩

/-- Witness for C4: literal scenario 3, sources [1,2] and [2,3] in detailed
ascending mode emit the groups [[(0,1)], [(1,2),(0,2)], [(1,3)]]. -/
theorem claim4_witness :
    (∀ src ∈ [[1,2],[2,3]], List.Chain' (ltc natCmp) src) ∧
    detailedOutput natCmp [[1,2],[2,3]] = [[(0,1)],[(1,2),(0,2)],[(1,3)]] ∧
    (∃ q, ([(1,2),(0,2)] : List (Nat × Nat)).getLast? = some q ∧
      ∀ p ∈ ([(1,2),(0,2)] : List (Nat × Nat)), p.2 = q.2) := by
  refine ⟨scenario_sorted_3, by decide, ?_⟩
  exact claim4_tie_values natCmp [[1,2],[2,3]] lawful_natCmp scenario_sorted_3
    [(1,2),(0,2)] (by decide)

/-- C5: with the reversed comparator and correspondingly reversed (hence
sorted) sources the Merge Engine emits the reverse of the ascending output,
over the same set of distinct values. -/
theorem claim5_reversed_comparator (cmp : Cmp T) (srcs : List (List T))
    (hlc : LawfulCmp cmp) (hs : ∀ src ∈ srcs, List.Chain' (ltc cmp) src) :
    mergeOutput (flipCmp cmp) (srcs.map List.reverse) = (mergeOutput cmp srcs).reverse ∧
    (∀ x, x ∈ mergeOutput (flipCmp cmp) (srcs.map List.reverse) ↔
      x ∈ mergeOutput cmp srcs) := by
  have hlcf := lawful_flipCmp hlc
  have hsf : ∀ src ∈ srcs.map List.reverse, List.Chain' (ltc (flipCmp cmp)) src := by
    intro src hsrc
    obtain ⟨src0, hsrc0, rfl⟩ := List.mem_map.mp hsrc
    rw [List.chain'_reverse]
    exact hs src0 hsrc0
  have e1 := mergeOutput_eq_union hlcf (srcs.map List.reverse) hsf
  have e2 := mergeOutput_eq_union hlc srcs hs
  have hrev : sortedDedupUnion (flipCmp cmp) (srcs.map List.reverse) =
      (sortedDedupUnion cmp srcs).reverse := by
    apply sorted_unique hlcf
    · exact chain_sortedDedupUnion hlcf _
    · rw [List.chain'_reverse]
      exact chain_sortedDedupUnion hlc srcs
    · intro x
      rw [mem_sortedDedupUnion hlcf, List.mem_reverse, mem_sortedDedupUnion hlc]
      constructor
      · intro hx
        obtain ⟨l, hl, hxl⟩ := List.mem_flatten.mp hx
        obtain ⟨l0, hl0, rfl⟩ := List.mem_map.mp hl
        exact List.mem_flatten.mpr ⟨l0, hl0, List.mem_reverse.mp hxl⟩
      · intro hx
        obtain ⟨l, hl, hxl⟩ := List.mem_flatten.mp hx
        exact List.mem_flatten.mpr
          ⟨l.reverse, List.mem_map_of_mem _ hl, List.mem_reverse.mpr hxl⟩
  constructor
  · rw [e1, e2, hrev]
  · intro x
    rw [e1, e2, hrev, List.mem_reverse]

/-- Witness for C5: literal scenario 2, the scenario-1 values supplied
descending with the reversed comparator yield [7,6,5,4,3,2,1]. -/
theorem claim5_witness :
    LawfulCmp natCmp ∧
    (∀ src ∈ [[1,2,3,4,5],[3,4,5,6,7],[2,3,4]], List.Chain' (ltc natCmp) src) ∧
    ([[1,2,3,4,5],[3,4,5,6,7],[2,3,4]].map List.reverse
      = [[5,4,3,2,1],[7,6,5,4,3],[4,3,2]]) ∧
    mergeOutput (flipCmp natCmp) [[5,4,3,2,1],[7,6,5,4,3],[4,3,2]]
      = [7,6,5,4,3,2,1] := by
  refine ⟨lawful_natCmp, scenario_sorted_1, by decide, ?_⟩
  have h := (claim5_reversed_comparator natCmp [[1,2,3,4,5],[3,4,5,6,7],[2,3,4]]
    lawful_natCmp scenario_sorted_1).1
  have hmap : [[1,2,3,4,5],[3,4,5,6,7],[2,3,4]].map List.reverse
      = [[5,4,3,2,1],[7,6,5,4,3],[4,3,2]] := by decide
  rw [hmap] at h
  exact h.trans (by decide)

/-- C7: after full consumption the engines drain every source: the final
states hold an empty heap and only empty source suffixes, and every source
value occurs in the output, so nothing was pulled without being used. -/
theorem claim7_sources_drained (cmp : Cmp T) (srcs : List (List T))
    (hlc : LawfulCmp cmp) (hs : ∀ src ∈ srcs, List.Chain' (ltc cmp) src) :
    (mergeFinal cmp srcs).heap = [] ∧
    (∀ rem ∈ (mergeFinal cmp srcs).iters, rem = []) ∧
    (detailedFinal cmp srcs).heap = [] ∧
    (∀ rem ∈ (detailedFinal cmp srcs).iters, rem = []) ∧
    (∀ (j : Nat) (src : List T), srcs[j]? = some src →
      ∀ x ∈ src, x ∈ mergeOutput cmp srcs) := by
  obtain ⟨hheap, hdrain, _, _, hmem, _, _⟩ := output_master hlc srcs hs
  obtain ⟨hcorr, _, _, hfin⟩ := mergeOutput_corr cmp srcs
  refine ⟨by rw [hfin, hheap], ?_, hheap, hdrain, ?_⟩
  · rw [hfin]
    exact hdrain
  · intro j src hj x hx
    rw [hcorr]
    apply (hmem x).mpr
    exact List.mem_flatten.mpr ⟨src, List.mem_iff_getElem?.mpr ⟨j, hj⟩, hx⟩

/-- Witness for C7 on literal scenario 1 inputs. -/
theorem claim7_witness :
    (∀ src ∈ [[1,2,3,4,5],[3,4,5,6,7],[2,3,4]], List.Chain' (ltc natCmp) src) ∧
    (mergeFinal natCmp [[1,2,3,4,5],[3,4,5,6,7],[2,3,4]]).heap = [] ∧
    (∀ rem ∈ (mergeFinal natCmp [[1,2,3,4,5],[3,4,5,6,7],[2,3,4]]).iters, rem = []) := by
  have h := claim7_sources_drained natCmp [[1,2,3,4,5],[3,4,5,6,7],[2,3,4]]
    lawful_natCmp scenario_sorted_1
  exact ⟨scenario_sorted_1, h.1, h.2.1⟩

/-- C10: the two engines are equivalent up to output shape: they emit the
same number of items, mapping each group to its last entry's value yields
exactly the plain engine's sequence, every group is nonempty, and the final
states coincide; this holds for every comparator and every sources list. -/
theorem claim10_engines_equivalent (cmp : Cmp T) (srcs : List (List T)) :
    mergeOutput cmp srcs = (detailedOutput cmp srcs).filterMap groupVal ∧
    (mergeOutput cmp srcs).length = (detailedOutput cmp srcs).length ∧
    (∀ g ∈ detailedOutput cmp srcs, g ≠ []) ∧
    mergeFinal cmp srcs = detailedFinal cmp srcs :=
  mergeOutput_corr cmp srcs

/-- C3: every emitted group carries a last entry q; all group values compare
Equal to q's value, no source index repeats, all indices are in range, and a
source has an entry in the group exactly when its sequence contains the
emitted value. -/
theorem claim3_group_completeness (cmp : Cmp T) (srcs : List (List T))
    (hlc : LawfulCmp cmp) (hs : ∀ src ∈ srcs, List.Chain' (ltc cmp) src) :
    ∀ g ∈ detailedOutput cmp srcs, ∃ q, g.getLast? = some q ∧
      (∀ p ∈ g, cmp q.2 p.2 = Ordering.eq) ∧
      (g.map Prod.fst).Nodup ∧
      (∀ p ∈ g, p.1 < srcs.length) ∧
      (∀ j : Nat, (∃ w, (j, w) ∈ g) ↔ q.2 ∈ (srcs[j]?).getD []) := by
  obtain ⟨_, _, _, hchain, _, hgs, hcons⟩ := output_master hlc srcs hs
  have hnodupv : ((detailedOutput cmp srcs).filterMap groupVal).Nodup :=
    (ltc_chain_pairwise hlc _ hchain).imp (fun h => hlc.ne_of_lt h)
  have hallsome : ∀ g ∈ detailedOutput cmp srcs, (groupVal g).isSome := by
    intro g hg
    obtain ⟨q, hq1, _⟩ := hgs g hg
    unfold groupVal
    rw [hq1]
    rfl
  have hinj := filterMap_all_some_inj groupVal _ hallsome hnodupv
  intro g hg
  obtain ⟨q, hq1, hq2, hq3⟩ := hgs g hg
  refine ⟨q, hq1, ?_, hq3, ?_, ?_⟩
  · intro p hp
    rw [(hq2 p hp).1, hlc.refl]
  · intro p hp
    exact (hq2 p hp).2
  · intro j
    constructor
    · rintro ⟨w, hw⟩
      have hwv : w = q.2 := (hq2 (j, w) hw).1
      subst hwv
      have h1 : (j, q.2) ∈ (detailedOutput cmp srcs).flatten :=
        List.mem_flatten.mpr ⟨g, hg, hw⟩
      have h2 : (j, q.2) ∈ (detailedOutput cmp srcs).flatten.filter
          (fun p => p.1 == j) :=
        List.mem_filter.mpr ⟨h1, by simp⟩
      have h3 := List.mem_map_of_mem Prod.snd h2
      rw [hcons j] at h3
      exact h3
    · intro hv
      rw [← hcons j] at hv
      obtain ⟨p, hp, hpv⟩ := List.mem_map.mp hv
      obtain ⟨hpflat, hpj⟩ := List.mem_filter.mp hp
      simp only [beq_iff_eq] at hpj
      obtain ⟨g2, hg2, hpg2⟩ := List.mem_flatten.mp hpflat
      obtain ⟨q2, hq21, hq22, _⟩ := hgs g2 hg2
      have hq2v : q2.2 = q.2 := by
        rw [← (hq22 p hpg2).1]
        exact hpv
      have hgv : groupVal g2 = groupVal g := by
        unfold groupVal
        rw [hq21, hq1]
        simp only [Option.map_some']
        rw [hq2v]
      have hgg : g2 = g := hinj g2 hg2 g hg hgv
      subst hgg
      refine ⟨p.2, ?_⟩
      rw [← hpj]
      exact hpg2
    -- end of iff

/-- Witness for C3: on sources [1,2], [2,3] the group of the value 2 has
entries for both sources and no others. -/
theorem claim3_witness :
    (∀ src ∈ [[1,2],[2,3]], List.Chain' (ltc natCmp) src) ∧
    (∃ q, ([(1,2),(0,2)] : List (Nat × Nat)).getLast? = some q ∧
      (∀ p ∈ ([(1,2),(0,2)] : List (Nat × Nat)), natCmp q.2 p.2 = Ordering.eq) ∧
      (([(1,2),(0,2)] : List (Nat × Nat)).map Prod.fst).Nodup ∧
      (∀ p ∈ ([(1,2),(0,2)] : List (Nat × Nat)), p.1 < 2) ∧
      (∀ j : Nat, (∃ w, (j, w) ∈ ([(1,2),(0,2)] : List (Nat × Nat))) ↔
        (2 : Nat) ∈ (([[1,2],[2,3]] : List (List Nat))[j]?).getD [])) := by
  refine ⟨scenario_sorted_3, ?_⟩
  have h := claim3_group_completeness natCmp [[1,2],[2,3]] lawful_natCmp
    scenario_sorted_3 [(1,2),(0,2)] (by decide)
  obtain ⟨q, hq1, hq2, hq3, hq4, hq5⟩ := h
  have hqv : q = (0, 2) := by
    simp only [List.getLast?_cons, List.getLast?_singleton] at hq1
    exact Option.some_inj.mp hq1.symm
  subst hqv
  exact ⟨(0, 2), hq1, hq2, hq3, hq4, hq5⟩

/-- C6: once next() has signalled completion the heap is empty, the state is
unchanged, and every later call again returns None with the same state, for
both engines. -/
theorem claim6_completion_terminal (cmp : Cmp T) (s : MergeIterator T) :
    ((MergeIterator.next cmp s).1 = none →
      ∀ k, (mergeStepIter cmp s k).1 = none ∧ (mergeStepIter cmp s k).2 = s) ∧
    ((DetailedMergeIterator.next cmp s).1 = none →
      ∀ k, (detailedStepIter cmp s k).1 = none ∧ (detailedStepIter cmp s k).2 = s) := by
  constructor
  · intro h k
    have hstep := merge_next_done cmp s h
    induction k with
    | zero =>
      simp only [mergeStepIter]
      rw [hstep]
      exact ⟨rfl, rfl⟩
    | succ k ih =>
      simp only [mergeStepIter]
      rw [ih.2, hstep]
      exact ⟨rfl, rfl⟩
  · intro h k
    have hstep := detailed_next_done cmp s h
    induction k with
    | zero =>
      simp only [detailedStepIter]
      rw [hstep]
      exact ⟨rfl, rfl⟩
    | succ k ih =>
      simp only [detailedStepIter]
      rw [ih.2, hstep]
      exact ⟨rfl, rfl⟩

/-- Witness for C6 on a completed engine over one exhausted source. -/
theorem claim6_witness :
    (MergeIterator.next natCmp ⟨[[]], []⟩).1 = none ∧
    (mergeStepIter natCmp ⟨[[]], []⟩ 2).1 = none ∧
    (mergeStepIter natCmp (⟨[[]], []⟩ : MergeIterator Nat) 2).2 = ⟨[[]], []⟩ ∧
    (DetailedMergeIterator.next natCmp ⟨[[]], []⟩).1 = none ∧
    (detailedStepIter natCmp ⟨[[]], []⟩ 2).1 = none := by
  refine ⟨rfl, ?_, ?_, rfl, ?_⟩
  · exact ((claim6_completion_terminal natCmp ⟨[[]], []⟩).1 rfl 2).1
  · exact ((claim6_completion_terminal natCmp ⟨[[]], []⟩).1 rfl 2).2
  · exact ((claim6_completion_terminal natCmp ⟨[[]], []⟩).2 rfl 2).1

theorem init_nil (cmp : Cmp T) :
    merge_iters_by cmp ([] : List (List T)) = ⟨[], []⟩ := by
  simp [merge_iters_by, heapify, initVec, rebuildLoop]

theorem mergeOutput_nil (cmp : Cmp T) : mergeOutput cmp ([] : List (List T)) = [] := by
  unfold mergeOutput
  rw [init_nil]
  rfl

theorem detailedOutput_nil (cmp : Cmp T) :
    detailedOutput cmp ([] : List (List T)) = [] := by
  unfold detailedOutput
  rw [show merge_iters_detailed_by cmp ([] : List (List T)) = ⟨[], []⟩ from init_nil cmp]
  rfl

/-- C8: the Frontier invariant: construction yields distinct source
indices and drops only empty sources; for invariant states, each next()
call preserves the invariant and index distinctness, never grows the heap,
and returns None exactly when the heap is empty; zero sources give an
immediately empty heap and empty outputs. -/
theorem claim8_frontier_invariant (cmp : Cmp T) (srcs : List (List T))
    (hlc : LawfulCmp cmp) (hs : ∀ src ∈ srcs, List.Chain' (ltc cmp) src) :
    ((merge_iters_by cmp srcs).heap.map Prod.fst).Nodup ∧
    (∀ (j : Nat) (rem : List T), (merge_iters_by cmp srcs).iters[j]? = some rem →
      rem ≠ [] → ∃ v, (j, v) ∈ (merge_iters_by cmp srcs).heap) ∧
    Inv cmp (merge_iters_by cmp srcs) ∧
    (∀ s : MergeIterator T, Inv cmp s →
      Inv cmp (MergeIterator.next cmp s).2 ∧
      ((MergeIterator.next cmp s).2.heap.map Prod.fst).Nodup ∧
      (MergeIterator.next cmp s).2.heap.length ≤ s.heap.length ∧
      ((MergeIterator.next cmp s).1 = none ↔ s.heap = [])) ∧
    (∀ s : MergeIterator T, Inv cmp s →
      Inv cmp (DetailedMergeIterator.next cmp s).2 ∧
      ((DetailedMergeIterator.next cmp s).2.heap.map Prod.fst).Nodup ∧
      (DetailedMergeIterator.next cmp s).2.heap.length ≤ s.heap.length ∧
      ((DetailedMergeIterator.next cmp s).1 = none ↔ s.heap = [])) ∧
    (merge_iters_by cmp ([] : List (List T))).heap = [] ∧
    mergeOutput cmp ([] : List (List T)) = [] ∧
    detailedOutput cmp ([] : List (List T)) = [] := by
  have hinv0 := inv_init hlc srcs hs
  refine ⟨init_heap_nodup cmp srcs, ?_, hinv0, ?_, ?_,
    by rw [init_nil], mergeOutput_nil cmp, detailedOutput_nil cmp⟩
  · intro j rem h1 h2
    by_contra habs
    push_neg at habs
    exact h2 (hinv0.absent j rem h1 (fun v hv => habs v hv))
  · intro s hinv
    obtain ⟨h1, h2, h3⟩ := merge_next_preserves hlc s hinv
    exact ⟨h1, h1.nodup, h2, h3⟩
  · intro s hinv
    obtain ⟨h1, h2, h3⟩ := detailed_next_preserves hlc s hinv
    exact ⟨h1, h1.nodup, h2, h3⟩

/-- Witness for C8 on literal scenario 3 sources. -/
theorem claim8_witness :
    LawfulCmp natCmp ∧
    (∀ src ∈ [[1,2],[2,3]], List.Chain' (ltc natCmp) src) ∧
    ((merge_iters_by natCmp [[1,2],[2,3]]).heap.map Prod.fst).Nodup ∧
    (merge_iters_by natCmp ([] : List (List Nat))).heap = [] := by
  have h := claim8_frontier_invariant natCmp [[1,2],[2,3]] lawful_natCmp scenario_sorted_3
  exact ⟨lawful_natCmp, scenario_sorted_3, h.1, h.2.2.2.2.2.1⟩

/-- C9: every heap entry of every reachable state of either engine carries a
source index below the number of sources, so the source-slice indexing in
next() always hits an existing slot: the Option-returning lookup is some. -/
theorem claim9_indices_in_bounds (cmp : Cmp T) (srcs : List (List T)) :
    (∀ e ∈ (merge_iters_by cmp srcs).heap,
      e.1 < (merge_iters_by cmp srcs).iters.length ∧
      ((merge_iters_by cmp srcs).iters[e.1]?).isSome = true) ∧
    (∀ k, ∀ e ∈ (mergeStepIter cmp (merge_iters_by cmp srcs) k).2.heap,
      e.1 < (mergeStepIter cmp (merge_iters_by cmp srcs) k).2.iters.length ∧
      ((mergeStepIter cmp (merge_iters_by cmp srcs) k).2.iters[e.1]?).isSome = true) ∧
    (∀ k, ∀ e ∈ (detailedStepIter cmp (merge_iters_detailed_by cmp srcs) k).2.heap,
      e.1 < (detailedStepIter cmp (merge_iters_detailed_by cmp srcs) k).2.iters.length ∧
      ((detailedStepIter cmp
        (merge_iters_detailed_by cmp srcs) k).2.iters[e.1]?).isSome = true) := by
  have hsome : ∀ (l : List (List T)) (i : Nat), i < l.length → (l[i]?).isSome = true := by
    intro l i hi
    rw [List.getElem?_eq_getElem hi]
    rfl
  refine ⟨?_, ?_, ?_⟩
  · intro e he
    have h := init_idx cmp srcs e he
    exact ⟨h, hsome _ _ h⟩
  · intro k e he
    have h := mergeStepIter_idx cmp (merge_iters_by cmp srcs) (init_idx cmp srcs) k e he
    exact ⟨h, hsome _ _ h⟩
  · intro k e he
    have h := detailedStepIter_idx cmp (merge_iters_detailed_by cmp srcs)
      (init_idx cmp srcs) k e he
    exact ⟨h, hsome _ _ h⟩

end Claims

end IterSetsOps
